import Mathlib

/-!
Verification development for the Brainfuck optimizing interpreter / JIT
(`src/interpreter.rs`).  The Rust code is shallowly embedded: machine
integers (`i16`, `i32`) are modelled as `Int` (the claims under study do
not depend on fixed-width overflow of the accumulators; cell writes wrap
explicitly via `% 256`, matching the `as u8` truncations in the source),
the `HashMap<i32, i16>` of pending additions is modelled as an
insertion-ordered association list (its iteration order is arbitrary in
Rust; the model fixes insertion order), fallible operations return
`Except`/`Option`, and the unbounded interpreter loop is run on fuel.
-/

/-- IR instruction set, from `enum Token` in `src/interpreter.rs`. -/
inductive Token where
  | Add (n : Int) (offset : Int)
  | Mul (n : Int) (offset : Int) (base : Int)
  | AddTo (dst : Int) (src : Int)
  | Clear (offset : Int)
  | Shift (n : Int)
  | LoopBegin (rel : Int)
  | LoopEnd (rel : Int)
  | Input (offset : Int)
  | Output (offset : Int)
  | End
deriving DecidableEq, Repr

/-- `HashMap::get` on the pending-additions map (association list model). -/
def mpLookup : List (Int × Int) → Int → Option Int
  | [], _ => none
  | (k', v) :: rest, k => if k' = k then some v else mpLookup rest k

/-- The `'+'`/`'-'` handling: `mp.insert(shift, n)` when absent,
`*add += n` when present (association list model; fresh keys go to the
back, which models one arbitrary `HashMap` iteration order). -/
def mpAdd : List (Int × Int) → Int → Int → List (Int × Int)
  | [], k, n => [(k, n)]
  | (k', v) :: rest, k, n =>
      if k' = k then (k', v + n) :: rest else (k', v) :: mpAdd rest k n

/-- `HashMap::remove` (no-op when the key is absent, as in Rust). -/
def mpRemove : List (Int × Int) → Int → List (Int × Int)
  | [], _ => []
  | (k', v) :: rest, k => if k' = k then rest else (k', v) :: mpRemove rest k

/-- The pending-additions flush used at `'['` and at a non-idiom `']'`:
`for (shift, add) in &mp { if *add != 0 { inst.push(Add(*add, *shift)) } }`. -/
def flushAdds (mp : List (Int × Int)) : List Token :=
  mp.filterMap fun kv => if kv.2 ≠ 0 then some (Token.Add kv.2 kv.1) else none

/-- The auxiliary state of the single-pass optimizer in `Interpreter::new`:
`inst`, `depth`, `shift`, `begin` and the pending map `mp`. -/
structure OptState where
  inst : List Token
  depth : Int
  shift : Int
  beginIdx : Nat
  mp : List (Int × Int)
deriving DecidableEq, Repr

/-- One character of the optimizer sweep: the per-character dispatch of
`Interpreter::new` (lines 34-125 of `src/interpreter.rs`).  Characters
other than the eight commands are skipped (`_ => continue`). -/
def optStep (st : OptState) (c : Char) : Except String OptState :=
  if c = '+' then Except.ok { st with mp := mpAdd st.mp st.shift 1 }
  else if c = '-' then Except.ok { st with mp := mpAdd st.mp st.shift (-1) }
  else if c = '>' then Except.ok { st with shift := st.shift + 1 }
  else if c = '<' then Except.ok { st with shift := st.shift - 1 }
  else if c = ',' then
    -- `,`: drop any pending add at the current offset, emit `Input(shift)`
    Except.ok { st with mp := mpRemove st.mp st.shift,
                        inst := st.inst ++ [Token.Input st.shift] }
  else if c = '.' then
    -- `.`: flush the single pending add at the current offset, emit `Output(shift)`
    match mpLookup st.mp st.shift with
    | some a => Except.ok { st with
        inst := st.inst ++ [Token.Add a st.shift, Token.Output st.shift],
        mp := mpRemove st.mp st.shift }
    | none => Except.ok { st with inst := st.inst ++ [Token.Output st.shift] }
  else if c = '[' then
    -- `[`: flush all non-zero pending adds, commit the pending shift,
    -- push a `LoopBegin(0)` placeholder and remember its successor index
    let inst2 := (st.inst ++ flushAdds st.mp)
        ++ (if st.shift ≠ 0 then [Token.Shift st.shift] else [])
    let inst3 := inst2 ++ [Token.LoopBegin 0]
    Except.ok { st with depth := st.depth + 1, inst := inst3, mp := [],
                        shift := 0, beginIdx := inst3.length }
  else if c = ']' then
    if st.depth - 1 < 0 then Except.error "[ missing."
    else if st.inst.length = st.beginIdx ∧ st.shift = 0
        ∧ mpLookup st.mp 0 = some (-1) then
      -- multiply-add / clear idiom: pop the `LoopBegin` placeholder (and a
      -- `Shift` just before it, restoring `shift`), drop offset 0 from the
      -- pending map, emit `AddTo`/`Mul` per remaining entry, then `Clear`.
      -- (`inst.pop().unwrap()`: in every state `Interpreter.new` reaches
      -- with the guard true, `inst` ends in the `LoopBegin` placeholder.)
      let inst1 := st.inst.dropLast
      match inst1.getLast? with
      | some (Token.Shift prev) =>
        Except.ok { st with
          depth := st.depth - 1,
          inst := inst1.dropLast
            ++ ((mpRemove st.mp 0).filterMap fun kv =>
                  if kv.2 = 0 then none
                  else if kv.2 = 1 then some (Token.AddTo (kv.1 + prev) prev)
                  else some (Token.Mul kv.2 (kv.1 + prev) prev))
            ++ [Token.Clear prev],
          shift := prev, mp := [], beginIdx := 0 }
      | _ =>
        Except.ok { st with
          depth := st.depth - 1,
          inst := inst1
            ++ ((mpRemove st.mp 0).filterMap fun kv =>
                  if kv.2 = 0 then none
                  else if kv.2 = 1 then some (Token.AddTo (kv.1 + st.shift) st.shift)
                  else some (Token.Mul kv.2 (kv.1 + st.shift) st.shift))
            ++ [Token.Clear st.shift],
          shift := st.shift, mp := [], beginIdx := 0 }
    else
      -- ordinary loop close: flush pending adds and shift, emit `LoopEnd(0)`
      let inst2 := (st.inst ++ flushAdds st.mp)
          ++ (if st.shift ≠ 0 then [Token.Shift st.shift] else [])
      Except.ok { st with
        depth := st.depth - 1,
        inst := inst2 ++ [Token.LoopEnd 0], shift := 0, mp := [] }
  else Except.ok st

/-- The optimizer sweep over the whole character stream. -/
def optRun : OptState → List Char → Except String OptState
  | st, [] => Except.ok st
  | st, c :: cs =>
    match optStep st c with
    | Except.ok st' => optRun st' cs
    | Except.error e => Except.error e

/-- Initial optimizer state (`inst` empty, `depth = shift = begin = 0`,
empty pending map). -/
def initState : OptState := ⟨[], 0, 0, 0, []⟩

/-- The worker of `Interpreter::build_jump_addr`: walk the IR with a stack
of `LoopBegin` indices; at a `LoopEnd` at index `i` pop the matching index
`pos` and assign `LoopBegin.rel = (i - pos) + 1`, `LoopEnd.rel = 1 - (i - pos)`.
`stack.pop().unwrap()` on an empty stack is a panic, modelled as `none`. -/
def buildJumpAddrGo : List Token → List Token → List Nat → Nat → Option (List Token)
  | [], opt, _, _ => some opt
  | t :: rest, opt, stack, i =>
    match t with
    | Token.LoopBegin _ =>
        buildJumpAddrGo rest (opt ++ [Token.LoopBegin 0]) (i :: stack) (i + 1)
    | Token.LoopEnd _ =>
        match stack with
        | [] => none
        | pos :: stack' =>
          let shift : Int := (i : Int) - (pos : Int)
          buildJumpAddrGo rest
            ((opt.set pos (Token.LoopBegin (shift + 1))) ++ [Token.LoopEnd (1 - shift)])
            stack' (i + 1)
    | tk => buildJumpAddrGo rest (opt ++ [tk]) stack (i + 1)

/-- `Interpreter::build_jump_addr` (jump-resolution pass). -/
def buildJumpAddr (l : List Token) : Option (List Token) :=
  buildJumpAddrGo l [] [] 0

/-- `Interpreter::new`: run the optimizer sweep, reject on `depth > 0`,
append `End`, and resolve jumps.  The `none` of `buildJumpAddr` (a panic in
the Rust source) is modelled as a third error and proved unreachable. -/
def Interpreter.new (s : List Char) : Except String (List Token) :=
  match optRun initState s with
  | Except.error e => Except.error e
  | Except.ok st =>
    if st.depth > 0 then Except.error "] missing."
    else
      match buildJumpAddr (st.inst ++ [Token.End]) with
      | some l => Except.ok l
      | none => Except.error "panic: pop on empty stack"

example : Interpreter.new "+-.".toList
    = Except.ok [Token.Add 0 0, Token.Output 0, Token.End] := by rfl

example : Interpreter.new ">+.<,".toList
    = Except.ok [Token.Add 1 1, Token.Output 1, Token.Input 0, Token.End] := by rfl

example : Interpreter.new "[]".toList
    = Except.ok [Token.LoopBegin 2, Token.LoopEnd 0, Token.End] := by rfl

example : Interpreter.new "+++[->++<]".toList
    = Except.ok [Token.Add 3 0, Token.Mul 2 1 0, Token.Clear 0, Token.End] := by rfl

example : Interpreter.new "]".toList = Except.error "[ missing." := by rfl

example : Interpreter.new "[".toList = Except.error "] missing." := by rfl

/-- State of one interpreter execution (`Interpreter::run`): instruction
index `ip` (`i` in the source), head position `pos`, the tape `buffer`,
plus the two byte streams, modelled as the list of bytes not yet read and
the list of bytes written so far. -/
structure RunState where
  ip : Int
  pos : Int
  buffer : List Int
  input : List Int
  output : List Int
deriving DecidableEq, Repr

/-- `buffer[idx as usize]` as a read: `none` models the index panic (a
negative `i32` cast to `usize`, or an index past the end). -/
def readCell (buf : List Int) (idx : Int) : Option Int :=
  if idx < 0 then none else buf.get? idx.toNat

/-- `buffer[idx as usize] = f(old)` as a bounds-checked update. -/
def writeCell (buf : List Int) (idx : Int) (f : Int → Int) : Option (List Int) :=
  if idx < 0 then none
  else
    match buf.get? idx.toNat with
    | some old => some (buf.set idx.toNat (f old))
    | none => none

/-- Result of one interpreter step: advance, halt (at `End`), or panic
(out-of-bounds tape or instruction access). -/
inductive StepRes where
  | next (s : RunState)
  | halt (s : RunState)
  | panic
deriving DecidableEq, Repr

def StepRes.isHalt : StepRes → Bool
  | StepRes.halt _ => true
  | _ => false

/-- One iteration of the `loop` in `Interpreter::run` (lines 163-199 of
`src/interpreter.rs`).  Cell writes truncate with `as u8`, modelled as
`% 256`; `,` on an exhausted reader leaves the zero-initialized one-byte
read buffer untouched, hence stores 0. -/
def step (prog : List Token) (s : RunState) : StepRes :=
  if s.ip < 0 then StepRes.panic
  else
    match prog.get? s.ip.toNat with
    | none => StepRes.panic
    | some t =>
      match t with
      | Token.Add n shift =>
        match writeCell s.buffer (s.pos + shift) (fun rhs => (n + rhs) % 256) with
        | some buf => StepRes.next { s with buffer := buf, ip := s.ip + 1 }
        | none => StepRes.panic
      | Token.Mul n shift base =>
        match readCell s.buffer (s.pos + base) with
        | some mul =>
          match writeCell s.buffer (s.pos + shift) (fun rhs => (n * mul + rhs) % 256) with
          | some buf => StepRes.next { s with buffer := buf, ip := s.ip + 1 }
          | none => StepRes.panic
        | none => StepRes.panic
      | Token.AddTo dst src =>
        match readCell s.buffer (s.pos + src) with
        | some fromN =>
          match writeCell s.buffer (dst + s.pos) (fun toN => (fromN + toN) % 256) with
          | some buf => StepRes.next { s with buffer := buf, ip := s.ip + 1 }
          | none => StepRes.panic
        | none => StepRes.panic
      | Token.Clear shift =>
        match writeCell s.buffer (s.pos + shift) (fun _ => 0) with
        | some buf => StepRes.next { s with buffer := buf, ip := s.ip + 1 }
        | none => StepRes.panic
      | Token.Shift shift => StepRes.next { s with pos := s.pos + shift, ip := s.ip + 1 }
      | Token.LoopBegin label =>
        match readCell s.buffer s.pos with
        | some v =>
          if v = 0 then StepRes.next { s with ip := s.ip + label }
          else StepRes.next { s with ip := s.ip + 1 }
        | none => StepRes.panic
      | Token.LoopEnd label =>
        match readCell s.buffer s.pos with
        | some v =>
          if v ≠ 0 then StepRes.next { s with ip := s.ip + label }
          else StepRes.next { s with ip := s.ip + 1 }
        | none => StepRes.panic
      | Token.Input shift =>
        match s.input with
        | [] =>
          match writeCell s.buffer (s.pos + shift) (fun _ => 0) with
          | some buf => StepRes.next { s with buffer := buf, ip := s.ip + 1 }
          | none => StepRes.panic
        | b :: rest =>
          match writeCell s.buffer (s.pos + shift) (fun _ => b) with
          | some buf => StepRes.next { s with buffer := buf, input := rest, ip := s.ip + 1 }
          | none => StepRes.panic
      | Token.Output shift =>
        match readCell s.buffer (s.pos + shift) with
        | some v => StepRes.next { s with output := s.output ++ [v], ip := s.ip + 1 }
        | none => StepRes.panic
      | Token.End => StepRes.halt s

/-- Fuelled interpreter loop: `some` is a normal halt within `fuel` steps,
`none` covers panics and fuel exhaustion (the source loop is unbounded). -/
def runLoop (prog : List Token) : Nat → RunState → Option RunState
  | 0, _ => none
  | fuel + 1, s =>
    match step prog s with
    | StepRes.halt s' => some s'
    | StepRes.next s' => runLoop prog fuel s'
    | StepRes.panic => none

/-- The initial state of `Interpreter::run`: `i = 0`, `pos = 0`, and the
freshly zeroed tape `[0u8; 0xffff]` (line 162 of `src/interpreter.rs`). -/
def Interpreter.runInit (input : List Int) : RunState :=
  { ip := 0, pos := 0, buffer := List.replicate 0xffff 0, input := input, output := [] }

/-- `Interpreter::run` on a program, an input stream, and fuel. -/
def Interpreter.run (prog : List Token) (input : List Int) (fuel : Nat) : Option RunState :=
  runLoop prog fuel (Interpreter.runInit input)

example : (Interpreter.run [Token.Add 255 0, Token.End] [] 5).map
    (fun s => s.buffer.get? 0) = some (some 255) := by rfl

/-- One step of the machine code emitted by `Interpreter::compile`,
modelled at the IR level: each case transcribes the effect of the dynasm
block for that token on the tape (`rcx`), the head offset (`rdx`) and the
streams.  It agrees with `step` everywhere except `Input`: the emitted
`mov [rcx + rdx + shift as _], rax` (line 275 of `src/interpreter.rs`)
stores the full 64-bit return register, so besides the input byte at the
cell it overwrites the next seven cells with the zero-extended upper bytes
of `rax`.  The loop lowering (labels placed right after the conditional
jumps) jumps exactly one past the partner bracket, which is what the
resolved `rel` fields encode (cf. `buildJumpAddr`), so both bracket cases
are modelled with `ip + rel`. -/
def jitStep (prog : List Token) (s : RunState) : StepRes :=
  if s.ip < 0 then StepRes.panic
  else
    match prog.get? s.ip.toNat with
    | none => StepRes.panic
    | some t =>
      match t with
      | Token.Add n shift =>
        match writeCell s.buffer (s.pos + shift) (fun rhs => (n + rhs) % 256) with
        | some buf => StepRes.next { s with buffer := buf, ip := s.ip + 1 }
        | none => StepRes.panic
      | Token.Mul n shift base =>
        match readCell s.buffer (s.pos + base) with
        | some mul =>
          match writeCell s.buffer (s.pos + shift) (fun rhs => (n * mul + rhs) % 256) with
          | some buf => StepRes.next { s with buffer := buf, ip := s.ip + 1 }
          | none => StepRes.panic
        | none => StepRes.panic
      | Token.AddTo dst src =>
        match readCell s.buffer (s.pos + src) with
        | some fromN =>
          match writeCell s.buffer (dst + s.pos) (fun toN => (fromN + toN) % 256) with
          | some buf => StepRes.next { s with buffer := buf, ip := s.ip + 1 }
          | none => StepRes.panic
        | none => StepRes.panic
      | Token.Clear shift =>
        match writeCell s.buffer (s.pos + shift) (fun _ => 0) with
        | some buf => StepRes.next { s with buffer := buf, ip := s.ip + 1 }
        | none => StepRes.panic
      | Token.Shift shift => StepRes.next { s with pos := s.pos + shift, ip := s.ip + 1 }
      | Token.LoopBegin label =>
        match readCell s.buffer s.pos with
        | some v =>
          if v = 0 then StepRes.next { s with ip := s.ip + label }
          else StepRes.next { s with ip := s.ip + 1 }
        | none => StepRes.panic
      | Token.LoopEnd label =>
        match readCell s.buffer s.pos with
        | some v =>
          if v ≠ 0 then StepRes.next { s with ip := s.ip + label }
          else StepRes.next { s with ip := s.ip + 1 }
        | none => StepRes.panic
      | Token.Input shift =>
        -- the 64-bit store: byte `b` at the cell, then the seven
        -- zero-extension bytes of `rax` into the following cells
        let b : Int := match s.input with | [] => 0 | c :: _ => c
        let rest : List Int := match s.input with | [] => [] | _ :: r => r
        match (writeCell s.buffer (s.pos + shift) (fun _ => b)).bind
            (fun b1 => (writeCell b1 (s.pos + shift + 1) (fun _ => 0)).bind
            (fun b2 => (writeCell b2 (s.pos + shift + 2) (fun _ => 0)).bind
            (fun b3 => (writeCell b3 (s.pos + shift + 3) (fun _ => 0)).bind
            (fun b4 => (writeCell b4 (s.pos + shift + 4) (fun _ => 0)).bind
            (fun b5 => (writeCell b5 (s.pos + shift + 5) (fun _ => 0)).bind
            (fun b6 => (writeCell b6 (s.pos + shift + 6) (fun _ => 0)).bind
            (fun b7 => writeCell b7 (s.pos + shift + 7) (fun _ => 0)))))))) with
        | some buf => StepRes.next { s with buffer := buf, input := rest, ip := s.ip + 1 }
        | none => StepRes.panic
      | Token.Output shift =>
        match readCell s.buffer (s.pos + shift) with
        | some v => StepRes.next { s with output := s.output ++ [v], ip := s.ip + 1 }
        | none => StepRes.panic
      | Token.End => StepRes.halt s

/-- Fuelled loop for the JIT model. -/
def jitLoop (prog : List Token) : Nat → RunState → Option RunState
  | 0, _ => none
  | fuel + 1, s =>
    match jitStep prog s with
    | StepRes.halt s' => some s'
    | StepRes.next s' => jitLoop prog fuel s'
    | StepRes.panic => none

/-- The initial state of the callable returned by `Interpreter::compile`:
the closure allocates a freshly zeroed `[0u8; 0xffff]` tape (line 301 of
`src/interpreter.rs`) and the emitted prologue zeroes the head register. -/
def Interpreter.jitInit (input : List Int) : RunState :=
  { ip := 0, pos := 0, buffer := List.replicate 0xffff 0, input := input, output := [] }

/-- Invoking the function emitted by `Interpreter::compile`. -/
def Interpreter.jitRun (prog : List Token) (input : List Int) (fuel : Nat) : Option RunState :=
  jitLoop prog fuel (Interpreter.jitInit input)

/-- Specification-side description of bracket matching: walk the IR with a
stack of open `LoopBegin` indices and record the pair `(i, j)` whenever the
`LoopEnd` at `j` closes the `LoopBegin` at `i`. -/
def matchPairsGo : List Token → List Nat → Nat → List (Nat × Nat) → Option (List (Nat × Nat))
  | [], _, _, acc => some acc
  | t :: rest, stack, i, acc =>
    match t with
    | Token.LoopBegin _ => matchPairsGo rest (i :: stack) (i + 1) acc
    | Token.LoopEnd _ =>
      match stack with
      | [] => none
      | pos :: stack' => matchPairsGo rest stack' (i + 1) (acc ++ [(pos, i)])
    | _ => matchPairsGo rest stack (i + 1) acc

/-- The matched `LoopBegin`/`LoopEnd` position pairs of an IR vector. -/
def matchPairs (l : List Token) : Option (List (Nat × Nat)) :=
  matchPairsGo l [] 0 []

/-- The bracket shape of a token: `buildJumpAddr` reads nothing but this
(the `rel` payloads of `LoopBegin`/`LoopEnd` are matched with `_`). -/
def tokShape : Token → Token
  | Token.LoopBegin _ => Token.LoopBegin 0
  | Token.LoopEnd _ => Token.LoopEnd 0
  | t => t

/-- Number of `'['` in a character source. -/
def opens (s : List Char) : Nat := s.count '['

/-- Number of `']'` in a character source. -/
def closes (s : List Char) : Nat := s.count ']'

/-- A character source whose brackets are fully matched: equal bracket
counts and no prefix closes more than it opens. -/
def charBalanced (s : List Char) : Prop :=
  opens s = closes s ∧ ∀ n, closes (s.take n) ≤ opens (s.take n)

instance (s : List Char) : Decidable (charBalanced s) :=
  decidable_of_iff
    (opens s = closes s ∧ ∀ n < s.length + 1, closes (s.take n) ≤ opens (s.take n))
    (by
      constructor
      · rintro ⟨h1, h2⟩
        refine ⟨h1, fun n => ?_⟩
        rcases lt_or_le n (s.length + 1) with hn | hn
        · exact h2 n hn
        · have hs : s.take n = s := List.take_of_length_le (by omega)
          have hs2 : s.take s.length = s := List.take_of_length_le le_rfl
          rw [hs]
          have h3 := h2 s.length (by omega)
          rwa [hs2] at h3
      · rintro ⟨h1, h2⟩
        exact ⟨h1, fun n _ => h2 n⟩)

example : (Interpreter.jitRun [Token.Add 1 1, Token.Output 1, Token.Input 0, Token.End]
    [] 10).map (fun s => (s.buffer.get? 1, s.output)) = some (some 0, [1]) := by rfl

example : (Interpreter.run [Token.Add 1 1, Token.Output 1, Token.Input 0, Token.End]
    [] 10).map (fun s => (s.buffer.get? 1, s.output)) = some (some 1, [1]) := by rfl

/-- C1 counterexample: both tapes have `0xffff` = 65,535 cells
(`[0u8; 0xffff]`, lines 162 and 301 of `src/interpreter.rs`), so the
claimed size of exactly 65,536 cells is false already at the initial
state for the empty input stream. -/
theorem c1_counterexample :
    ¬ ((Interpreter.runInit []).buffer.length = 65536
       ∧ (Interpreter.jitInit []).buffer.length = 65536) := by
  intro h
  have h1 := h.1
  rw [show (Interpreter.runInit []).buffer = List.replicate 65535 0 from rfl,
    List.length_replicate] at h1
  omega

/-- C1 (amended): the interpreter executes the IR from a freshly zeroed
tape of exactly 65,535 (`0xffff`) cells with the head at index 0, and the
callable returned by `compile` likewise starts from a freshly zeroed
65,535-byte tape with the head register zeroed. -/
theorem c1_tape_init :
    ∀ input : List Int,
      (Interpreter.runInit input).buffer = List.replicate 65535 0
      ∧ (Interpreter.runInit input).buffer.length = 65535
      ∧ (Interpreter.runInit input).pos = 0
      ∧ (Interpreter.runInit input).ip = 0
      ∧ (Interpreter.jitInit input).buffer = List.replicate 65535 0
      ∧ (Interpreter.jitInit input).pos = 0
      ∧ (Interpreter.jitInit input).ip = 0
      ∧ (∀ prog fuel, Interpreter.run prog input fuel
            = runLoop prog fuel (Interpreter.runInit input))
      ∧ (∀ prog fuel, Interpreter.jitRun prog input fuel
            = jitLoop prog fuel (Interpreter.jitInit input)) := by
  intro input
  exact ⟨rfl,
    by rw [show (Interpreter.runInit input).buffer = List.replicate 65535 0 from rfl,
      List.length_replicate],
    rfl, rfl, rfl, rfl, rfl, fun _ _ => rfl, fun _ _ => rfl⟩

/-- C2 (code bug): on the source `">+.<,"` with an exhausted reader, the
reference interpreter and the JIT produce the same output bytes but
different final tapes.  The JIT's `Input` lowering stores the whole 64-bit
return register (`mov [rcx + rdx + shift as _], rax`), zeroing the seven
cells after the input cell, here wiping `tape[1] = 1`; the interpreter
stores exactly one byte and leaves `tape[1] = 1`. -/
theorem c2_jit_input_diverges :
    Interpreter.new ">+.<,".toList
      = Except.ok [Token.Add 1 1, Token.Output 1, Token.Input 0, Token.End]
    ∧ (Interpreter.run [Token.Add 1 1, Token.Output 1, Token.Input 0, Token.End]
        [] 10).map (fun s => (s.buffer.get? 1, s.output)) = some (some 1, [1])
    ∧ (Interpreter.jitRun [Token.Add 1 1, Token.Output 1, Token.Input 0, Token.End]
        [] 10).map (fun s => (s.buffer.get? 1, s.output)) = some (some 0, [1]) := by
  exact ⟨rfl, rfl, rfl⟩

/-- C8: interpreter cell writes wrap modulo 256.  An `Add(n, off)` step
replaces the cell by `(n + old) % 256`, which lies in `[0, 256)`; in
particular (see the witness) `Add(255, 0)` on a zero cell yields 255 and a
further `Add(1, 0)` yields 0, as evaluated in the last two conjuncts. -/
theorem c8_add_wraps :
    (∀ (prog : List Token) (s : RunState) (n off old : Int),
        prog.get? s.ip.toNat = some (Token.Add n off) →
        0 ≤ s.ip →
        s.buffer.get? (s.pos + off).toNat = some old →
        0 ≤ s.pos + off →
        step prog s = StepRes.next { s with
          buffer := s.buffer.set (s.pos + off).toNat ((n + old) % 256),
          ip := s.ip + 1 }
        ∧ 0 ≤ (n + old) % 256 ∧ (n + old) % 256 < 256)
    ∧ (Interpreter.run [Token.Add 255 0, Token.End] [] 5).map
        (fun s => s.buffer.get? 0) = some (some 255)
    ∧ (Interpreter.run [Token.Add 255 0, Token.Add 1 0, Token.End] [] 5).map
        (fun s => s.buffer.get? 0) = some (some 0) := by
  refine ⟨?_, rfl, rfl⟩
  intro prog s n off old hprog hip hbuf hpos
  refine ⟨?_, Int.emod_nonneg _ (by norm_num), Int.emod_lt_of_pos _ (by norm_num)⟩
  unfold step
  rw [if_neg (by omega), hprog]
  dsimp only
  unfold writeCell
  rw [if_neg (by omega), hbuf]

/-- C8 witness: the general conjunct applied to `Add(255, 0)` at the
freshly zeroed tape. -/
theorem c8_add_wraps_witness :
    step [Token.Add 255 0, Token.End] (Interpreter.runInit [])
      = StepRes.next { Interpreter.runInit [] with
          buffer := (Interpreter.runInit []).buffer.set
            ((Interpreter.runInit []).pos + 0).toNat ((255 + 0) % 256),
          ip := (Interpreter.runInit []).ip + 1 }
    ∧ 0 ≤ (255 + 0 : Int) % 256 ∧ (255 + 0 : Int) % 256 < 256 := by
  exact c8_add_wraps.1 [Token.Add 255 0, Token.End] (Interpreter.runInit [])
    255 0 0 (by rfl) (by norm_num [Interpreter.runInit]) (by rfl)
    (by norm_num [Interpreter.runInit])

/-- C9: with the reader exhausted (`read` succeeds returning zero bytes,
leaving the zero-initialized one-byte buffer untouched), an
`Input(off)` instruction stores 0 into `tape[pos + off]`, overwriting
whatever value `old` the cell held, and execution continues with the next
instruction. -/
theorem c9_input_eof_stores_zero :
    ∀ (prog : List Token) (s : RunState) (off old : Int),
      prog.get? s.ip.toNat = some (Token.Input off) →
      0 ≤ s.ip →
      s.input = [] →
      s.buffer.get? (s.pos + off).toNat = some old →
      0 ≤ s.pos + off →
      step prog s = StepRes.next { s with
        buffer := s.buffer.set (s.pos + off).toNat 0, ip := s.ip + 1 } := by
  intro prog s off old hprog hip hin hbuf hpos
  unfold step
  rw [if_neg (by omega), hprog, hin]
  dsimp only
  unfold writeCell
  rw [if_neg (by omega), hbuf]

/-- C9 witness: an exhausted reader overwrites a cell holding 5 with 0. -/
theorem c9_input_eof_witness :
    step [Token.Input 0, Token.End]
        { ip := 0, pos := 0, buffer := [5], input := [], output := [] }
      = StepRes.next
        { ({ ip := 0, pos := 0, buffer := [5], input := [], output := [] } : RunState) with
          buffer := ([5] : List Int).set ((0 : Int) + 0).toNat 0, ip := (0 : Int) + 1 } := by
  exact c9_input_eof_stores_zero [Token.Input 0, Token.End]
    { ip := 0, pos := 0, buffer := [5], input := [], output := [] }
    0 5 (by rfl) (by norm_num) (by rfl) (by rfl) (by norm_num)

/-- Specification-side transcription of the multiply-add/clear emission:
for each remaining `(k, d)` in pending, `AddTo(k + shift, shift)` if
`d = 1`, `Mul(d, k + shift, shift)` if `d` is neither 0 nor 1 (entries
with `d = 0` are skipped), followed by `Clear(shift)`. -/
def idiomEmit (mp : List (Int × Int)) (sh : Int) : List Token :=
  (mp.filterMap fun kv =>
    if kv.2 = 0 then none
    else if kv.2 = 1 then some (Token.AddTo (kv.1 + sh) sh)
    else some (Token.Mul kv.2 (kv.1 + sh) sh)) ++ [Token.Clear sh]

/-- Specification-side transcription of the whole rewrite at a `]`: pop
the `LoopBegin` placeholder, pop any `Shift` immediately before it
(restoring `shift` to its payload), remove offset 0 from pending, append
`idiomEmit` of the remaining entries, clear pending, reset
`loop_body_start`. -/
def idiomResult (st : OptState) : OptState :=
  match st.inst.dropLast.getLast? with
  | some (Token.Shift prev) =>
    { st with depth := st.depth - 1,
              inst := st.inst.dropLast.dropLast ++ idiomEmit (mpRemove st.mp 0) prev,
              shift := prev, mp := [], beginIdx := 0 }
  | _ =>
    { st with depth := st.depth - 1,
              inst := st.inst.dropLast ++ idiomEmit (mpRemove st.mp 0) 0,
              shift := 0, mp := [], beginIdx := 0 }

/-- C3: at a `]` that does not fail the bracket check, the loop is
rewritten as the multiply-add/clear idiom exactly when nothing has been
emitted since its `LoopBegin` (`inst.len() == begin`), the pending shift
is 0, and `pending[0] == -1`; the rewrite is `idiomResult` (pop the
placeholder and any `Shift` before it, emit `AddTo`/`Mul` per remaining
pending entry skipping zero deltas, then `Clear`), and otherwise the loop
closes normally with flushed pending adds, a committed `Shift`, and a
`LoopEnd(0)` placeholder. -/
theorem c3_idiom_rewrite (st : OptState) (hd : 1 ≤ st.depth) :
    (st.inst.length = st.beginIdx ∧ st.shift = 0 ∧ mpLookup st.mp 0 = some (-1) →
      optStep st ']' = Except.ok (idiomResult st))
    ∧ (¬(st.inst.length = st.beginIdx ∧ st.shift = 0 ∧ mpLookup st.mp 0 = some (-1)) →
      optStep st ']' = Except.ok { st with
        depth := st.depth - 1,
        inst := (st.inst ++ flushAdds st.mp)
          ++ (if st.shift ≠ 0 then [Token.Shift st.shift] else [])
          ++ [Token.LoopEnd 0],
        shift := 0, mp := [] }) := by
  constructor
  · rintro ⟨h1, h2, h3⟩
    unfold optStep
    rw [if_neg (show ¬(']' : Char) = '+' by decide),
        if_neg (show ¬(']' : Char) = '-' by decide),
        if_neg (show ¬(']' : Char) = '>' by decide),
        if_neg (show ¬(']' : Char) = '<' by decide),
        if_neg (show ¬(']' : Char) = ',' by decide),
        if_neg (show ¬(']' : Char) = '.' by decide),
        if_neg (show ¬(']' : Char) = '[' by decide),
        if_pos (rfl : (']' : Char) = ']'),
        if_neg (show ¬ st.depth - 1 < 0 by omega),
        if_pos (show st.inst.length = st.beginIdx ∧ st.shift = 0
          ∧ mpLookup st.mp 0 = some (-1) from ⟨h1, h2, h3⟩)]
    unfold idiomResult idiomEmit
    dsimp only
    rcases hlast : st.inst.dropLast.getLast? with - | tok
    · simp [h2, List.append_assoc]
    · cases tok <;> simp [h2, List.append_assoc]
  · intro hn
    unfold optStep
    rw [if_neg (show ¬(']' : Char) = '+' by decide),
        if_neg (show ¬(']' : Char) = '-' by decide),
        if_neg (show ¬(']' : Char) = '>' by decide),
        if_neg (show ¬(']' : Char) = '<' by decide),
        if_neg (show ¬(']' : Char) = ',' by decide),
        if_neg (show ¬(']' : Char) = '.' by decide),
        if_neg (show ¬(']' : Char) = '[' by decide),
        if_pos (rfl : (']' : Char) = ']'),
        if_neg (show ¬ st.depth - 1 < 0 by omega),
        if_neg hn]

/-- C3 witness: the idiom branch at the state reached after `"[->++"`
seen from an empty pending map: the rewrite yields `Mul(2, 1, 0)` then
`Clear(0)`. -/
theorem c3_idiom_rewrite_witness :
    optStep ⟨[Token.LoopBegin 0], 1, 0, 1, [(0, -1), (1, 2)]⟩ ']'
      = Except.ok (idiomResult ⟨[Token.LoopBegin 0], 1, 0, 1, [(0, -1), (1, 2)]⟩) := by
  exact (c3_idiom_rewrite ⟨[Token.LoopBegin 0], 1, 0, 1, [(0, -1), (1, 2)]⟩
    (by norm_num)).1 ⟨rfl, rfl, rfl⟩

theorem shape_LB {t₂ : Token} {a : Int}
    (h : tokShape (Token.LoopBegin a) = tokShape t₂) : ∃ b, t₂ = Token.LoopBegin b := by
  cases t₂ <;> simp_all [tokShape]

theorem shape_LE {t₂ : Token} {a : Int}
    (h : tokShape (Token.LoopEnd a) = tokShape t₂) : ∃ b, t₂ = Token.LoopEnd b := by
  cases t₂ <;> simp_all [tokShape]

theorem tokShape_other {t₁ t₂ : Token} (h : tokShape t₁ = tokShape t₂)
    (h1 : ∀ a, t₁ ≠ Token.LoopBegin a) (h2 : ∀ a, t₁ ≠ Token.LoopEnd a) : t₂ = t₁ := by
  cases t₁ <;> cases t₂ <;> first
    | exact absurd rfl (h1 _)
    | exact absurd rfl (h2 _)
    | simp_all [tokShape]

theorem buildJumpAddrGo_shape_eq (l₁ : List Token) :
    ∀ (l₂ opt : List Token) (stack : List Nat) (i : Nat),
      l₁.map tokShape = l₂.map tokShape →
      buildJumpAddrGo l₁ opt stack i = buildJumpAddrGo l₂ opt stack i := by
  induction l₁ with
  | nil =>
    intro l₂ opt stack i h
    cases l₂ with
    | nil => rfl
    | cons t r => simp at h
  | cons t₁ r₁ ih =>
    intro l₂ opt stack i h
    cases l₂ with
    | nil => simp at h
    | cons t₂ r₂ =>
      simp only [List.map_cons, List.cons.injEq] at h
      obtain ⟨hh, ht⟩ := h
      cases t₁
      case LoopBegin a =>
        obtain ⟨b, rfl⟩ := shape_LB hh
        simp only [buildJumpAddrGo]
        exact ih _ _ _ _ ht
      case LoopEnd a =>
        obtain ⟨b, rfl⟩ := shape_LE hh
        simp only [buildJumpAddrGo]
        cases stack with
        | nil => rfl
        | cons p s => exact ih _ _ _ _ ht
      all_goals
        rw [tokShape_other hh (fun a h => by simp at h) (fun a h => by simp at h)]
        simp only [buildJumpAddrGo]
        exact ih _ _ _ _ ht

theorem set_get?_self {α : Type} (l : List α) (n : Nat) (a : α)
    (h : l.get? n = some a) : l.set n a = l := by
  induction l generalizing n with
  | nil => simp at h
  | cons x xs ih =>
    cases n with
    | zero => simp only [List.get?] at h; cases h; rfl
    | succ m => simp only [List.get?] at h
                simp [List.set, ih m h]

theorem buildJumpAddrGo_shape_pres (l : List Token) :
    ∀ (opt out : List Token) (stack : List Nat) (i : Nat),
      buildJumpAddrGo l opt stack i = some out →
      i = opt.length →
      (∀ p ∈ stack, ∃ r, opt.get? p = some (Token.LoopBegin r)) →
      out.map tokShape = opt.map tokShape ++ l.map tokShape := by
  induction l with
  | nil =>
    intro opt out stack i h hi hstack
    cases h
    simp
  | cons t rest ih =>
    intro opt out stack i h hi hstack
    have hkeep : ∀ (tk : Token),
        buildJumpAddrGo rest (opt ++ [tk]) stack (i + 1) = some out →
        out.map tokShape = (opt.map tokShape ++ [tokShape tk]) ++ rest.map tokShape := by
      intro tk hgo
      have := ih (opt ++ [tk]) out stack (i + 1) hgo (by simp [hi])
        (by intro p hp
            obtain ⟨r, hr⟩ := hstack p hp
            refine ⟨r, ?_⟩
            rw [List.get?_append ((List.get?_eq_some.mp hr).1), hr])
      simpa using this
    cases t
    case LoopBegin a =>
      simp only [buildJumpAddrGo] at h
      have hmain := ih (opt ++ [Token.LoopBegin 0]) out (i :: stack) (i + 1) h
        (by simp [hi])
        (by intro p hp
            rcases List.mem_cons.mp hp with rfl | hp'
            · refine ⟨0, ?_⟩
              rw [hi, List.get?_append_right (le_refl opt.length)]
              simp
            · obtain ⟨r, hr⟩ := hstack p hp'
              exact ⟨r, by rw [List.get?_append ((List.get?_eq_some.mp hr).1), hr]⟩)
      simpa [tokShape] using hmain
    case LoopEnd a =>
      simp only [buildJumpAddrGo] at h
      cases stack with
      | nil => cases h
      | cons pos stack' =>
        obtain ⟨r0, hr0⟩ := hstack pos (List.mem_cons_self pos stack')
        have hposlt : pos < opt.length := (List.get?_eq_some.mp hr0).1
        have hmain := ih
          ((opt.set pos (Token.LoopBegin ((i : Int) - (pos : Int) + 1)))
            ++ [Token.LoopEnd (1 - ((i : Int) - (pos : Int)))])
          out stack' (i + 1) h
          (by simp [hi, List.length_set])
          (by intro p hp
              obtain ⟨r, hr⟩ := hstack p (List.mem_cons_of_mem pos hp)
              have hplt : p < opt.length := (List.get?_eq_some.mp hr).1
              by_cases hpp : p = pos
              · subst hpp
                refine ⟨(i : Int) - (p : Int) + 1, ?_⟩
                rw [List.get?_append (by simpa [List.length_set] using hplt)]
                rw [List.get?_set_eq_of_lt _ hplt]
              · refine ⟨r, ?_⟩
                rw [List.get?_append (by simpa [List.length_set] using hplt)]
                rw [List.get?_set_ne _ _ (fun hc => hpp hc.symm), hr])
        have hsetmap : (opt.set pos (Token.LoopBegin ((i : Int) - (pos : Int) + 1))).map tokShape
            = opt.map tokShape := by
          rw [List.map_set]
          apply set_get?_self
          rw [List.get?_map, hr0]
          rfl
        rw [hmain]
        simp [hsetmap, tokShape]
    all_goals
      first
      | exact (by simpa [tokShape] using hkeep _ (by simpa [buildJumpAddrGo] using h))

/-- C7: the jump-resolution pass is idempotent: whenever `buildJumpAddr`
succeeds on `l` with output `out` (so `out` is jump-resolved IR),
applying it to `out` yields `out` itself.  It holds because the pass reads
only the bracket shape of its input (the `rel` payloads are ignored) and
preserves that shape. -/
theorem c7_idempotent :
    ∀ l out : List Token, buildJumpAddr l = some out → buildJumpAddr out = some out := by
  intro l out h
  have hsh : out.map tokShape = l.map tokShape := by
    have := buildJumpAddrGo_shape_pres l [] out [] 0 h rfl (by intro p hp; cases hp)
    simpa using this
  calc buildJumpAddr out = buildJumpAddr l :=
        buildJumpAddrGo_shape_eq out l [] [] 0 hsh
    _ = some out := h

/-- C7 witness: re-resolving the already resolved IR of `"[]"`. -/
theorem c7_idempotent_witness :
    buildJumpAddr [Token.LoopBegin 2, Token.LoopEnd 0, Token.End]
      = some [Token.LoopBegin 2, Token.LoopEnd 0, Token.End] :=
  c7_idempotent [Token.LoopBegin 0, Token.LoopEnd 0, Token.End]
    [Token.LoopBegin 2, Token.LoopEnd 0, Token.End] (by rfl)

/-- No `Add(0, k)` occurs in a token list. -/
def noZeroAdd (l : List Token) : Prop := ∀ n k : Int, Token.Add n k ∈ l → n ≠ 0

/-- Members of the pending-adds flush are `Add`s with non-zero delta. -/
theorem mem_flushAdds {t : Token} {mp : List (Int × Int)} (h : t ∈ flushAdds mp) :
    ∃ k v : Int, v ≠ 0 ∧ t = Token.Add v k := by
  unfold flushAdds at h
  obtain ⟨kv, hin, hkv⟩ := List.mem_filterMap.mp h
  by_cases hz : kv.2 ≠ 0
  · rw [if_pos hz] at hkv
    exact ⟨kv.1, kv.2, hz, (Option.some_inj.mp hkv).symm⟩
  · rw [if_neg hz] at hkv
    cases hkv

/-- Exhaustive case analysis of a successful `optStep`: which branch of the
per-character dispatch produced `st'`. -/
theorem optStep_cases (st : OptState) (c : Char) (st' : OptState)
    (h : optStep st c = Except.ok st') :
    (c = '+' ∧ st' = { st with mp := mpAdd st.mp st.shift 1 })
    ∨ (c = '-' ∧ st' = { st with mp := mpAdd st.mp st.shift (-1) })
    ∨ (c = '>' ∧ st' = { st with shift := st.shift + 1 })
    ∨ (c = '<' ∧ st' = { st with shift := st.shift - 1 })
    ∨ (c = ',' ∧ st' = { st with
          mp := mpRemove st.mp st.shift,
          inst := st.inst ++ [Token.Input st.shift] })
    ∨ (c = '.' ∧ ∃ a, mpLookup st.mp st.shift = some a ∧
        st' = { st with
          inst := st.inst ++ [Token.Add a st.shift, Token.Output st.shift],
          mp := mpRemove st.mp st.shift })
    ∨ (c = '.' ∧ mpLookup st.mp st.shift = none ∧
        st' = { st with inst := st.inst ++ [Token.Output st.shift] })
    ∨ (c = '[' ∧ st' = { st with
          depth := st.depth + 1,
          inst := ((st.inst ++ flushAdds st.mp)
            ++ (if st.shift ≠ 0 then [Token.Shift st.shift] else []))
            ++ [Token.LoopBegin 0],
          mp := [], shift := 0,
          beginIdx := (((st.inst ++ flushAdds st.mp)
            ++ (if st.shift ≠ 0 then [Token.Shift st.shift] else []))
            ++ [Token.LoopBegin 0]).length })
    ∨ (c = ']' ∧ ¬ st.depth - 1 < 0
       ∧ (st.inst.length = st.beginIdx ∧ st.shift = 0 ∧ mpLookup st.mp 0 = some (-1))
       ∧ ((∃ prev, st.inst.dropLast.getLast? = some (Token.Shift prev) ∧
             st' = { st with
               depth := st.depth - 1,
               inst := st.inst.dropLast.dropLast
                 ++ ((mpRemove st.mp 0).filterMap fun kv =>
                       if kv.2 = 0 then none
                       else if kv.2 = 1 then some (Token.AddTo (kv.1 + prev) prev)
                       else some (Token.Mul kv.2 (kv.1 + prev) prev))
                 ++ [Token.Clear prev],
               shift := prev, mp := [], beginIdx := 0 })
          ∨ st' = { st with
               depth := st.depth - 1,
               inst := st.inst.dropLast
                 ++ ((mpRemove st.mp 0).filterMap fun kv =>
                       if kv.2 = 0 then none
                       else if kv.2 = 1 then some (Token.AddTo (kv.1 + st.shift) st.shift)
                       else some (Token.Mul kv.2 (kv.1 + st.shift) st.shift))
                 ++ [Token.Clear st.shift],
               shift := st.shift, mp := [], beginIdx := 0 }))
    ∨ (c = ']' ∧ ¬ st.depth - 1 < 0
       ∧ ¬ (st.inst.length = st.beginIdx ∧ st.shift = 0 ∧ mpLookup st.mp 0 = some (-1))
       ∧ st' = { st with
           depth := st.depth - 1,
           inst := ((st.inst ++ flushAdds st.mp)
             ++ (if st.shift ≠ 0 then [Token.Shift st.shift] else []))
             ++ [Token.LoopEnd 0],
           shift := 0, mp := [] })
    ∨ (c ∉ (['+', '-', '>', '<', ',', '.', '[', ']'] : List Char) ∧ st' = st) := by
  unfold optStep at h
  by_cases h1 : c = '+'
  · rw [if_pos h1] at h
    exact Or.inl ⟨h1, (Except.ok.inj h).symm⟩
  rw [if_neg h1] at h
  by_cases h2 : c = '-'
  · rw [if_pos h2] at h
    exact Or.inr (Or.inl ⟨h2, (Except.ok.inj h).symm⟩)
  rw [if_neg h2] at h
  by_cases h3 : c = '>'
  · rw [if_pos h3] at h
    exact Or.inr (Or.inr (Or.inl ⟨h3, (Except.ok.inj h).symm⟩))
  rw [if_neg h3] at h
  by_cases h4 : c = '<'
  · rw [if_pos h4] at h
    exact Or.inr (Or.inr (Or.inr (Or.inl ⟨h4, (Except.ok.inj h).symm⟩)))
  rw [if_neg h4] at h
  by_cases h5 : c = ','
  · rw [if_pos h5] at h
    exact Or.inr (Or.inr (Or.inr (Or.inr (Or.inl ⟨h5, (Except.ok.inj h).symm⟩))))
  rw [if_neg h5] at h
  by_cases h6 : c = '.'
  · rw [if_pos h6] at h
    cases hmp : mpLookup st.mp st.shift with
    | some a =>
      rw [hmp] at h
      exact Or.inr (Or.inr (Or.inr (Or.inr (Or.inr (Or.inl
        ⟨h6, a, rfl, (Except.ok.inj h).symm⟩)))))
    | none =>
      rw [hmp] at h
      exact Or.inr (Or.inr (Or.inr (Or.inr (Or.inr (Or.inr (Or.inl
        ⟨h6, rfl, (Except.ok.inj h).symm⟩))))))
  rw [if_neg h6] at h
  by_cases h7 : c = '['
  · rw [if_pos h7] at h
    exact Or.inr (Or.inr (Or.inr (Or.inr (Or.inr (Or.inr (Or.inr (Or.inl
      ⟨h7, (Except.ok.inj h).symm⟩)))))))
  rw [if_neg h7] at h
  by_cases h8 : c = ']'
  · rw [if_pos h8] at h
    by_cases hdep : st.depth - 1 < 0
    · rw [if_pos hdep] at h
      cases h
    rw [if_neg hdep] at h
    by_cases hcond : st.inst.length = st.beginIdx ∧ st.shift = 0
        ∧ mpLookup st.mp 0 = some (-1)
    · rw [if_pos hcond] at h
      dsimp only at h
      cases hlast : st.inst.dropLast.getLast? with
      | none =>
        rw [hlast] at h
        exact Or.inr (Or.inr (Or.inr (Or.inr (Or.inr (Or.inr (Or.inr (Or.inr (Or.inl
          ⟨h8, hdep, hcond, Or.inr (Except.ok.inj h).symm⟩))))))))
      | some tok =>
        cases tok <;> rw [hlast] at h
        case pos.some.Shift prev =>
          exact Or.inr (Or.inr (Or.inr (Or.inr (Or.inr (Or.inr (Or.inr (Or.inr (Or.inl
            ⟨h8, hdep, hcond, Or.inl ⟨prev, rfl, (Except.ok.inj h).symm⟩⟩))))))))
        all_goals
          exact Or.inr (Or.inr (Or.inr (Or.inr (Or.inr (Or.inr (Or.inr (Or.inr (Or.inl
            ⟨h8, hdep, hcond, Or.inr (Except.ok.inj h).symm⟩))))))))
    · rw [if_neg hcond] at h
      exact Or.inr (Or.inr (Or.inr (Or.inr (Or.inr (Or.inr (Or.inr (Or.inr (Or.inr (Or.inl
        ⟨h8, hdep, hcond, (Except.ok.inj h).symm⟩)))))))))
  rw [if_neg h8] at h
  refine Or.inr (Or.inr (Or.inr (Or.inr (Or.inr (Or.inr (Or.inr (Or.inr (Or.inr (Or.inr
    ⟨?_, (Except.ok.inj h).symm⟩)))))))))
  intro hmem
  simp only [List.mem_cons, List.not_mem_nil, or_false] at hmem
  rcases hmem with rfl | rfl | rfl | rfl | rfl | rfl | rfl | rfl
  exacts [h1 rfl, h2 rfl, h3 rfl, h4 rfl, h5 rfl, h6 rfl, h7 rfl, h8 rfl]

theorem mem_idiomFilter {t : Token} {mp : List (Int × Int)} {sh : Int}
    (h : t ∈ mp.filterMap fun kv =>
      if kv.2 = 0 then none
      else if kv.2 = 1 then some (Token.AddTo (kv.1 + sh) sh)
      else some (Token.Mul kv.2 (kv.1 + sh) sh)) :
    (∃ a b, t = Token.AddTo a b) ∨ (∃ a b c, t = Token.Mul a b c) := by
  obtain ⟨kv, hin, hkv⟩ := List.mem_filterMap.mp h
  by_cases h0 : kv.2 = 0
  · rw [if_pos h0] at hkv; cases hkv
  rw [if_neg h0] at hkv
  by_cases h1 : kv.2 = 1
  · rw [if_pos h1] at hkv
    exact Or.inl ⟨_, _, (Option.some_inj.mp hkv).symm⟩
  · rw [if_neg h1] at hkv
    exact Or.inr ⟨_, _, _, (Option.some_inj.mp hkv).symm⟩

theorem noZeroAdd_append {l₁ l₂ : List Token} (h₁ : noZeroAdd l₁) (h₂ : noZeroAdd l₂) :
    noZeroAdd (l₁ ++ l₂) := by
  intro n k hmem
  rcases List.mem_append.mp hmem with hm | hm
  · exact h₁ n k hm
  · exact h₂ n k hm

theorem noZeroAdd_dropLast {l : List Token} (h : noZeroAdd l) : noZeroAdd l.dropLast :=
  fun n k hmem => h n k (List.dropLast_sublist l |>.mem hmem)

theorem optStep_noZeroAdd {st st' : OptState} {c : Char} (hc : c ≠ '.')
    (h : optStep st c = Except.ok st') (hP : noZeroAdd st.inst) : noZeroAdd st'.inst := by
  have hflush : noZeroAdd (flushAdds st.mp) := by
    intro n k hmem
    obtain ⟨k', v', hv', he⟩ := mem_flushAdds hmem
    injection he with e1 e2
    subst e1
    exact hv'
  have hshift : noZeroAdd (if st.shift ≠ 0 then [Token.Shift st.shift] else []) := by
    intro n k hmem
    split at hmem <;> simp at hmem
  have hsingle : ∀ t : Token, (∀ n k : Int, t ≠ Token.Add n k) → noZeroAdd [t] := by
    intro t ht n k hmem
    rw [List.mem_singleton] at hmem
    exact absurd hmem.symm (ht n k)
  rcases optStep_cases st c st' h with
    ⟨-, rfl⟩ | ⟨-, rfl⟩ | ⟨-, rfl⟩ | ⟨-, rfl⟩ | ⟨-, rfl⟩
    | ⟨hdot, -⟩ | ⟨hdot, -⟩
    | ⟨-, rfl⟩ | ⟨-, -, -, ⟨prev, -, rfl⟩ | rfl⟩ | ⟨-, -, -, rfl⟩ | ⟨-, rfl⟩
  · exact hP
  · exact hP
  · exact hP
  · exact hP
  · exact noZeroAdd_append hP (hsingle _ (fun n k he => by cases he))
  · exact absurd hdot hc
  · exact absurd hdot hc
  · exact noZeroAdd_append
      (noZeroAdd_append (noZeroAdd_append hP hflush) hshift)
      (hsingle _ (fun n k he => by cases he))
  · refine noZeroAdd_append (noZeroAdd_append ?_ ?_) (hsingle _ (fun n k he => by cases he))
    · exact noZeroAdd_dropLast (noZeroAdd_dropLast hP)
    · intro n k hmem
      rcases mem_idiomFilter hmem with ⟨a, b, he⟩ | ⟨a, b, c', he⟩ <;> cases he
  · refine noZeroAdd_append (noZeroAdd_append ?_ ?_) (hsingle _ (fun n k he => by cases he))
    · exact noZeroAdd_dropLast hP
    · intro n k hmem
      rcases mem_idiomFilter hmem with ⟨a, b, he⟩ | ⟨a, b, c', he⟩ <;> cases he
  · exact noZeroAdd_append
      (noZeroAdd_append (noZeroAdd_append hP hflush) hshift)
      (hsingle _ (fun n k he => by cases he))
  · exact hP

theorem optRun_noZeroAdd :
    ∀ (cs : List Char) (st st' : OptState), optRun st cs = Except.ok st' →
      '.' ∉ cs → noZeroAdd st.inst → noZeroAdd st'.inst := by
  intro cs
  induction cs with
  | nil =>
    intro st st' h _ hP
    cases h
    exact hP
  | cons c rest ih =>
    intro st st' h hdot hP
    unfold optRun at h
    cases hs : optStep st c with
    | error e => rw [hs] at h; cases h
    | ok st1 =>
      rw [hs] at h
      exact ih st1 st' h (fun hm => hdot (List.mem_cons_of_mem c hm))
        (optStep_noZeroAdd (fun he => hdot (he ▸ List.mem_cons_self c rest)) hs hP)

theorem tokShape_Add {t : Token} {n k : Int} (h : tokShape t = Token.Add n k) :
    t = Token.Add n k := by
  cases t <;> simp_all [tokShape]

theorem noZeroAdd_of_shape {l₁ l₂ : List Token}
    (hsh : l₂.map tokShape = l₁.map tokShape) (h : noZeroAdd l₁) : noZeroAdd l₂ := by
  intro n k hmem
  have h1 : tokShape (Token.Add n k) ∈ l₂.map tokShape := List.mem_map_of_mem tokShape hmem
  rw [hsh] at h1
  obtain ⟨t, htl, hts⟩ := List.mem_map.mp h1
  have ht : t = Token.Add n k := tokShape_Add hts
  exact h n k (ht ▸ htl)

/-- C4 counterexample: the source `"+-."` is accepted and its optimized IR
contains `Add(0, 0)` — the `Output` flush (lines 64-70 of
`src/interpreter.rs`) pushes the pending entry without a zero check. -/
theorem c4_counterexample :
    Interpreter.new "+-.".toList = Except.ok [Token.Add 0 0, Token.Output 0, Token.End]
    ∧ Token.Add 0 0 ∈ [Token.Add 0 0, Token.Output 0, Token.End] :=
  ⟨rfl, List.mem_cons_self _ _⟩

/-- C4 (amended): for every accepted source that contains no `'.'`
character, the optimized IR contains no `Add(0, k)`.  (The `Output` flush
is the only push of an `Add` without the non-zero check; every other flush
filters zero deltas, and jump resolution preserves non-bracket tokens.) -/
theorem c4_no_zero_add :
    ∀ (s : List Char) (l : List Token), '.' ∉ s → Interpreter.new s = Except.ok l →
      ∀ n k : Int, Token.Add n k ∈ l → n ≠ 0 := by
  intro s l hdot h
  unfold Interpreter.new at h
  cases hrun : optRun initState s with
  | error e => rw [hrun] at h; cases h
  | ok st =>
    rw [hrun] at h
    dsimp only at h
    by_cases hd : st.depth > 0
    · rw [if_pos hd] at h; cases h
    rw [if_neg hd] at h
    cases hb : buildJumpAddr (st.inst ++ [Token.End]) with
    | none => rw [hb] at h; cases h
    | some l' =>
      rw [hb] at h
      cases h
      have hbase : noZeroAdd (st.inst ++ [Token.End]) := by
        refine noZeroAdd_append ?_ ?_
        · exact optRun_noZeroAdd s initState st hrun hdot (fun n k hm => by cases hm)
        · intro n k hm
          rw [List.mem_singleton] at hm
          cases hm
      have hsh : l.map tokShape = (st.inst ++ [Token.End]).map tokShape := by
        have := buildJumpAddrGo_shape_pres (st.inst ++ [Token.End]) [] l [] 0 hb rfl
          (by intro p hp; cases hp)
        simpa using this
      exact noZeroAdd_of_shape hsh hbase

/-- C4 witness: the accepted `'.'`-free source `"+[]"` optimizes to
`[Add 1 0, LoopBegin 2, LoopEnd 0, End]`, whose `Add` delta 1 the theorem
proves non-zero. -/
theorem c4_no_zero_add_witness : (1 : Int) ≠ 0 := by
  have hnew : Interpreter.new "+[]".toList
      = Except.ok [Token.Add 1 0, Token.LoopBegin 2, Token.LoopEnd 0, Token.End] := by rfl
  exact c4_no_zero_add "+[]".toList
    [Token.Add 1 0, Token.LoopBegin 2, Token.LoopEnd 0, Token.End]
    (by decide) hnew 1 0 (List.mem_cons_self _ _)

/-- `End` never occurs in a token list. -/
def noEnd (l : List Token) : Prop := Token.End ∉ l

theorem noEnd_append {l₁ l₂ : List Token} (h₁ : noEnd l₁) (h₂ : noEnd l₂) :
    noEnd (l₁ ++ l₂) := by
  intro hmem
  rcases List.mem_append.mp hmem with hm | hm
  · exact h₁ hm
  · exact h₂ hm

theorem optStep_noEnd {st st' : OptState} {c : Char}
    (h : optStep st c = Except.ok st') (hP : noEnd st.inst) : noEnd st'.inst := by
  have hflush : noEnd (flushAdds st.mp) := by
    intro hmem
    obtain ⟨k', v', hv', he⟩ := mem_flushAdds hmem
    cases he
  have hshift : noEnd (if st.shift ≠ 0 then [Token.Shift st.shift] else []) := by
    intro hmem
    split at hmem <;> simp at hmem
  have hdrop : ∀ l : List Token, noEnd l → noEnd l.dropLast :=
    fun l hl hmem => hl (List.dropLast_sublist l |>.mem hmem)
  have hsingle : ∀ t : Token, t ≠ Token.End → noEnd [t] := by
    intro t ht hmem
    rw [List.mem_singleton] at hmem
    exact ht hmem.symm
  have hidiom : ∀ (mp : List (Int × Int)) (sh : Int),
      noEnd (mp.filterMap fun kv =>
        if kv.2 = 0 then none
        else if kv.2 = 1 then some (Token.AddTo (kv.1 + sh) sh)
        else some (Token.Mul kv.2 (kv.1 + sh) sh)) := by
    intro mp sh hmem
    rcases mem_idiomFilter hmem with ⟨a, b, he⟩ | ⟨a, b, c', he⟩ <;> cases he
  rcases optStep_cases st c st' h with
    ⟨-, rfl⟩ | ⟨-, rfl⟩ | ⟨-, rfl⟩ | ⟨-, rfl⟩ | ⟨-, rfl⟩
    | ⟨-, a, -, rfl⟩ | ⟨-, -, rfl⟩
    | ⟨-, rfl⟩ | ⟨-, -, -, ⟨prev, -, rfl⟩ | rfl⟩ | ⟨-, -, -, rfl⟩ | ⟨-, rfl⟩
  · exact hP
  · exact hP
  · exact hP
  · exact hP
  · exact noEnd_append hP (hsingle _ (by intro he; cases he))
  · refine noEnd_append hP ?_
    intro hmem
    rcases List.mem_cons.mp hmem with he | hmem
    · cases he
    · rw [List.mem_singleton] at hmem; cases hmem
  · exact noEnd_append hP (hsingle _ (by intro he; cases he))
  · exact noEnd_append (noEnd_append (noEnd_append hP hflush) hshift)
      (hsingle _ (by intro he; cases he))
  · exact noEnd_append (noEnd_append (hdrop _ (hdrop _ hP)) (hidiom _ _))
      (hsingle _ (by intro he; cases he))
  · exact noEnd_append (noEnd_append (hdrop _ hP) (hidiom _ _))
      (hsingle _ (by intro he; cases he))
  · exact noEnd_append (noEnd_append (noEnd_append hP hflush) hshift)
      (hsingle _ (by intro he; cases he))
  · exact hP

theorem optRun_noEnd :
    ∀ (cs : List Char) (st st' : OptState), optRun st cs = Except.ok st' →
      noEnd st.inst → noEnd st'.inst := by
  intro cs
  induction cs with
  | nil =>
    intro st st' h hP
    cases h
    exact hP
  | cons c rest ih =>
    intro st st' h hP
    unfold optRun at h
    cases hs : optStep st c with
    | error e => rw [hs] at h; cases h
    | ok st1 =>
      rw [hs] at h
      exact ih st1 st' h (optStep_noEnd hs hP)

theorem tokShape_End {t : Token} (h : tokShape t = Token.End) : t = Token.End := by
  cases t <;> simp_all [tokShape]

/-- The interpreter loop halts exactly at `End`: one `step` is a `halt`
precisely when the current instruction is `End`. -/
theorem step_isHalt (prog : List Token) (st : RunState) (t : Token) (hip : 0 ≤ st.ip)
    (hget : prog.get? st.ip.toNat = some t) :
    ((step prog st).isHalt = true ↔ t = Token.End) := by
  unfold step
  rw [if_neg (by omega), hget]
  cases t
  case End => simp [StepRes.isHalt]
  all_goals
    dsimp only
    refine iff_of_false ?_ (by simp)
    intro hh
    repeat' split at hh
    all_goals simp [StepRes.isHalt] at hh

/-- C10: for every accepted source, the optimized IR is non-empty, ends
with `End`, contains `End` at no other position, and the interpreter's
`step` halts exactly when the current instruction is `End`. -/
theorem c10_end_unique_terminator :
    ∀ (s : List Char) (l : List Token), Interpreter.new s = Except.ok l →
      l ≠ []
      ∧ l.getLast? = some Token.End
      ∧ (∀ i : Nat, l.get? i = some Token.End → i = l.length - 1)
      ∧ (∀ (st : RunState) (t : Token), 0 ≤ st.ip → l.get? st.ip.toNat = some t →
          ((step l st).isHalt = true ↔ t = Token.End)) := by
  intro s l h
  unfold Interpreter.new at h
  cases hrun : optRun initState s with
  | error e => rw [hrun] at h; cases h
  | ok st =>
    rw [hrun] at h
    dsimp only at h
    by_cases hd : st.depth > 0
    · rw [if_pos hd] at h; cases h
    rw [if_neg hd] at h
    cases hb : buildJumpAddr (st.inst ++ [Token.End]) with
    | none => rw [hb] at h; cases h
    | some l' =>
      rw [hb] at h
      cases h
      have hnoEnd : noEnd st.inst := optRun_noEnd s initState st hrun (by intro hm; cases hm)
      have hsh : l.map tokShape = (st.inst ++ [Token.End]).map tokShape := by
        have := buildJumpAddrGo_shape_pres (st.inst ++ [Token.End]) [] l [] 0 hb rfl
          (by intro p hp; cases hp)
        simpa using this
      have hlen : l.length = st.inst.length + 1 := by
        have := congrArg List.length hsh
        simpa using this
      have hget : ∀ i : Nat, Option.map tokShape (l.get? i)
          = Option.map tokShape ((st.inst ++ [Token.End]).get? i) := by
        intro i
        rw [← List.get?_map, ← List.get?_map, hsh]
      refine ⟨?_, ?_, ?_, ?_⟩
      · intro he
        rw [he] at hlen
        simp at hlen
      · have h1 := hget st.inst.length
        rw [List.get?_append_right (le_refl st.inst.length), Nat.sub_self] at h1
        cases hg : l.get? st.inst.length with
        | none => rw [hg] at h1; simp at h1
        | some t =>
          rw [hg] at h1
          simp [tokShape] at h1
          have ht : t = Token.End := tokShape_End h1
          rw [List.getLast?_eq_get?, hlen]
          simpa [ht] using hg
      · intro i hi
        have h1 := hget i
        rw [hi] at h1
        have hbound : i < l.length := (List.get?_eq_some.mp hi).1
        by_cases hlt : i < st.inst.length
        · rw [List.get?_append hlt] at h1
          cases hg : st.inst.get? i with
          | none => rw [hg] at h1; simp at h1
          | some t =>
            rw [hg] at h1
            simp [tokShape] at h1
            have ht : t = Token.End := tokShape_End h1.symm
            exact absurd (ht ▸ List.get?_mem hg) hnoEnd
        · omega
      · intro st1 t hip hg
        exact step_isHalt l st1 t hip hg

/-- C10 witness: the empty source compiles to `[End]`, on which the very
first step halts. -/
theorem c10_end_unique_terminator_witness :
    (step [Token.End] (Interpreter.runInit [])).isHalt = true := by
  have h := c10_end_unique_terminator [] [Token.End] (by rfl)
  exact (h.2.2.2 (Interpreter.runInit []) Token.End
    (by norm_num [Interpreter.runInit]) (by rfl)).mpr rfl

theorem buildJumpAddrGo_frame :
    ∀ (l : List Token) (opt out : List Token) (stack : List Nat) (i : Nat),
      buildJumpAddrGo l opt stack i = some out →
      i = opt.length →
      (∀ q ∈ stack, q < i) →
      ∀ p : Nat, p < opt.length → p ∉ stack → out.get? p = opt.get? p := by
  intro l
  induction l with
  | nil =>
    intro opt out stack i h _ _ p _ _
    cases h
    rfl
  | cons t rest ih =>
    intro opt out stack i h hi hstack p hp hpn
    cases t
    case LoopBegin a =>
      simp only [buildJumpAddrGo] at h
      have := ih (opt ++ [Token.LoopBegin 0]) out (i :: stack) (i + 1) h
        (by simp [hi])
        (by intro q hq
            rcases List.mem_cons.mp hq with rfl | hq'
            · omega
            · exact Nat.lt_succ_of_lt (hstack q hq'))
        p (by simp; omega)
        (by intro hmem
            rcases List.mem_cons.mp hmem with rfl | hmem'
            · omega
            · exact hpn hmem')
      rw [this, List.get?_append hp]
    case LoopEnd a =>
      simp only [buildJumpAddrGo] at h
      cases stack with
      | nil => cases h
      | cons pos stack' =>
        have hppos : p ≠ pos := fun hc => hpn (hc ▸ List.mem_cons_self pos stack')
        have := ih ((opt.set pos (Token.LoopBegin ((i : Int) - (pos : Int) + 1)))
            ++ [Token.LoopEnd (1 - ((i : Int) - (pos : Int)))]) out stack' (i + 1) h
          (by simp [hi, List.length_set])
          (by intro q hq
              exact Nat.lt_succ_of_lt (hstack q (List.mem_cons_of_mem pos hq)))
          p (by simp [List.length_set]; omega)
          (fun hmem => hpn (List.mem_cons_of_mem pos hmem))
        rw [this, List.get?_append (by simpa [List.length_set] using hp),
          List.get?_set_ne _ _ (fun hc => hppos hc.symm)]
    all_goals
      simp only [buildJumpAddrGo] at h
      have := ih _ out stack (i + 1) h (by simp [hi])
        (fun q hq => Nat.lt_succ_of_lt (hstack q hq))
        p (by simp; omega) hpn
      rw [this, List.get?_append hp]

theorem buildJumpAddrGo_match :
    ∀ (l : List Token) (opt out : List Token) (stack : List Nat) (i : Nat)
      (acc pairs : List (Nat × Nat)),
      buildJumpAddrGo l opt stack i = some out →
      matchPairsGo l stack i acc = some pairs →
      i = opt.length →
      (∀ q ∈ stack, q < i) →
      stack.Pairwise (· > ·) →
      ∀ ab ∈ pairs, ab ∈ acc ∨
        (out.get? ab.1 = some (Token.LoopBegin ((ab.2 : Int) - (ab.1 : Int) + 1))
         ∧ out.get? ab.2 = some (Token.LoopEnd (1 - ((ab.2 : Int) - (ab.1 : Int))))) := by
  intro l
  induction l with
  | nil =>
    intro opt out stack i acc pairs hgo hmp _ _ _ ab hab
    cases hgo
    cases hmp
    exact Or.inl hab
  | cons t rest ih =>
    intro opt out stack i acc pairs hgo hmp hi hstack hpw ab hab
    cases t
    case LoopBegin a =>
      simp only [buildJumpAddrGo] at hgo
      simp only [matchPairsGo] at hmp
      exact ih (opt ++ [Token.LoopBegin 0]) out (i :: stack) (i + 1) acc pairs hgo hmp
        (by simp [hi])
        (by intro q hq
            rcases List.mem_cons.mp hq with rfl | hq'
            · omega
            · exact Nat.lt_succ_of_lt (hstack q hq'))
        (List.pairwise_cons.mpr ⟨fun q hq => hstack q hq, hpw⟩)
        ab hab
    case LoopEnd a =>
      simp only [buildJumpAddrGo] at hgo
      simp only [matchPairsGo] at hmp
      cases stack with
      | nil => cases hgo
      | cons pos stack' =>
        have hposlt : pos < i := hstack pos (List.mem_cons_self pos stack')
        have hpw' := List.pairwise_cons.mp hpw
        have hih := ih _ out stack' (i + 1) (acc ++ [(pos, i)]) pairs hgo hmp
          (by simp [hi, List.length_set])
          (by intro q hq
              exact Nat.lt_succ_of_lt (hstack q (List.mem_cons_of_mem pos hq)))
          hpw'.2 ab hab
        rcases hih with hin | hP
        · rcases List.mem_append.mp hin with hin' | hin'
          · exact Or.inl hin'
          · rw [List.mem_singleton] at hin'
            subst hin'
            refine Or.inr ⟨?_, ?_⟩
            · have hframe := buildJumpAddrGo_frame rest
                ((opt.set pos (Token.LoopBegin ((i : Int) - (pos : Int) + 1)))
                  ++ [Token.LoopEnd (1 - ((i : Int) - (pos : Int)))]) out stack' (i + 1) hgo
                (by simp [hi, List.length_set])
                (by intro q hq
                    exact Nat.lt_succ_of_lt (hstack q (List.mem_cons_of_mem pos hq)))
                pos (by simp [List.length_set]; omega)
                (by intro hmem
                    exact absurd rfl (Nat.ne_of_gt (hpw'.1 pos hmem)).symm)
              rw [hframe, List.get?_append (by simp [List.length_set]; omega),
                List.get?_set_eq_of_lt _ (by omega : pos < opt.length)]
            · have hframe := buildJumpAddrGo_frame rest
                ((opt.set pos (Token.LoopBegin ((i : Int) - (pos : Int) + 1)))
                  ++ [Token.LoopEnd (1 - ((i : Int) - (pos : Int)))]) out stack' (i + 1) hgo
                (by simp [hi, List.length_set])
                (by intro q hq
                    exact Nat.lt_succ_of_lt (hstack q (List.mem_cons_of_mem pos hq)))
                i (by simp [List.length_set]; omega)
                (by intro hmem
                    exact absurd (hstack i (List.mem_cons_of_mem pos hmem)) (lt_irrefl i))
              rw [hframe, List.get?_append_right (by simp [List.length_set]; omega)]
              simp [List.length_set, hi]
        · exact Or.inr hP
    all_goals
      simp only [buildJumpAddrGo] at hgo
      simp only [matchPairsGo] at hmp
      exact ih _ out stack (i + 1) acc pairs hgo hmp (by simp [hi])
        (fun q hq => Nat.lt_succ_of_lt (hstack q hq)) hpw ab hab

/-- C5: in every jump-resolved IR, a `LoopBegin` at index `i` matched with
the `LoopEnd` at index `j` carries `rel = (j - i) + 1`, the `LoopEnd`
carries `rel = 1 - (j - i)`; the two `rel`s sum to 2, and `i + rel` from
either partner lands exactly one past the other. -/
theorem c5_jump_offsets :
    ∀ (l out : List Token) (pairs : List (Nat × Nat)) (i j : Nat),
      buildJumpAddr l = some out →
      matchPairs l = some pairs →
      (i, j) ∈ pairs →
      out.get? i = some (Token.LoopBegin ((j : Int) - (i : Int) + 1))
      ∧ out.get? j = some (Token.LoopEnd (1 - ((j : Int) - (i : Int))))
      ∧ ((j : Int) - (i : Int) + 1) + (1 - ((j : Int) - (i : Int))) = 2
      ∧ (i : Int) + ((j : Int) - (i : Int) + 1) = (j : Int) + 1
      ∧ (j : Int) + (1 - ((j : Int) - (i : Int))) = (i : Int) + 1 := by
  intro l out pairs i j hb hm hmem
  have h := buildJumpAddrGo_match l [] out [] 0 [] pairs hb hm rfl
    (by intro q hq; cases hq) List.Pairwise.nil (i, j) hmem
  rcases h with hin | ⟨h1, h2⟩
  · cases hin
  · exact ⟨h1, h2, by ring, by ring, by ring⟩

/-- C5 witness: the resolved IR of `"[]"` has `LoopBegin.rel = 2` at
index 0 for the partner `LoopEnd` at index 1. -/
theorem c5_jump_offsets_witness :
    [Token.LoopBegin 2, Token.LoopEnd 0, Token.End].get? 0 = some (Token.LoopBegin 2) := by
  have h := c5_jump_offsets [Token.LoopBegin 0, Token.LoopEnd 0, Token.End]
    [Token.LoopBegin 2, Token.LoopEnd 0, Token.End] [(0, 1)] 0 1 (by rfl) (by rfl)
    (List.mem_singleton.mpr rfl)
  rw [h.1]
  norm_num

/-- `optStep` fails only at a `']'` read with no unmatched `'['` open, and
only with the `"[ missing."` error. -/
theorem optStep_error_cases {st : OptState} {c : Char} {e : String}
    (h : optStep st c = Except.error e) :
    c = ']' ∧ st.depth ≤ 0 ∧ e = "[ missing." := by
  unfold optStep at h
  by_cases h1 : c = '+'
  · rw [if_pos h1] at h; cases h
  rw [if_neg h1] at h
  by_cases h2 : c = '-'
  · rw [if_pos h2] at h; cases h
  rw [if_neg h2] at h
  by_cases h3 : c = '>'
  · rw [if_pos h3] at h; cases h
  rw [if_neg h3] at h
  by_cases h4 : c = '<'
  · rw [if_pos h4] at h; cases h
  rw [if_neg h4] at h
  by_cases h5 : c = ','
  · rw [if_pos h5] at h; cases h
  rw [if_neg h5] at h
  by_cases h6 : c = '.'
  · rw [if_pos h6] at h
    cases hmp : mpLookup st.mp st.shift <;> rw [hmp] at h <;> cases h
  rw [if_neg h6] at h
  by_cases h7 : c = '['
  · rw [if_pos h7] at h; cases h
  rw [if_neg h7] at h
  by_cases h8 : c = ']'
  · rw [if_pos h8] at h
    by_cases hdep : st.depth - 1 < 0
    · rw [if_pos hdep] at h
      exact ⟨h8, by omega, (Except.error.inj h).symm⟩
    · rw [if_neg hdep] at h
      by_cases hcond : st.inst.length = st.beginIdx ∧ st.shift = 0
          ∧ mpLookup st.mp 0 = some (-1)
      · rw [if_pos hcond] at h
        dsimp only at h
        cases hlast : st.inst.dropLast.getLast? with
        | none => rw [hlast] at h; cases h
        | some tok => cases tok <;> rw [hlast] at h <;> cases h
      · rw [if_neg hcond] at h
        cases h
  · rw [if_neg h8] at h
    cases h

/-- The converse: a `']'` at `depth ≤ 0` fails with `"[ missing."`. -/
theorem optStep_close_error {st : OptState} (h : st.depth ≤ 0) :
    optStep st ']' = Except.error "[ missing." := by
  unfold optStep
  rw [if_neg (show ¬(']' : Char) = '+' by decide),
      if_neg (show ¬(']' : Char) = '-' by decide),
      if_neg (show ¬(']' : Char) = '>' by decide),
      if_neg (show ¬(']' : Char) = '<' by decide),
      if_neg (show ¬(']' : Char) = ',' by decide),
      if_neg (show ¬(']' : Char) = '.' by decide),
      if_neg (show ¬(']' : Char) = '[' by decide),
      if_pos (rfl : (']' : Char) = ']'),
      if_pos (show st.depth - 1 < 0 by omega)]

/-- Depth bookkeeping of one successful step: `'['` increments, `']'`
decrements (and requires `depth ≥ 1`), all else keeps `depth`. -/
theorem optStep_depth {st st' : OptState} {c : Char} (h : optStep st c = Except.ok st')
    (hge : 0 ≤ st.depth) :
    st'.depth = st.depth + (if c = '[' then 1 else 0) - (if c = ']' then 1 else 0)
    ∧ 0 ≤ st'.depth ∧ (c = ']' → 1 ≤ st.depth) := by
  rcases optStep_cases st c st' h with
    ⟨hc, rfl⟩ | ⟨hc, rfl⟩ | ⟨hc, rfl⟩ | ⟨hc, rfl⟩ | ⟨hc, rfl⟩
    | ⟨hc, a, -, rfl⟩ | ⟨hc, -, rfl⟩
    | ⟨hc, rfl⟩ | ⟨hc, hdep, -, hrest⟩ | ⟨hc, hdep, -, rfl⟩ | ⟨hc, rfl⟩ <;>
    try subst hc
  · simp; omega
  · simp; omega
  · simp; omega
  · simp; omega
  · simp; omega
  · simp; omega
  · simp; omega
  · simp; omega
  · rcases hrest with ⟨prev, -, rfl⟩ | rfl <;> simp <;> omega
  · simp; omega
  · simp only [List.mem_cons, List.not_mem_nil, or_false, not_or] at hc
    rw [if_neg hc.2.2.2.2.2.2.1, if_neg hc.2.2.2.2.2.2.2]
    exact ⟨by omega, hge, fun hcc => absurd hcc hc.2.2.2.2.2.2.2⟩

theorem optRun_error_val :
    ∀ (cs : List Char) (st : OptState) (e : String),
      optRun st cs = Except.error e → e = "[ missing." := by
  intro cs
  induction cs with
  | nil => intro st e h; cases h
  | cons c rest ih =>
    intro st e h
    unfold optRun at h
    cases hs : optStep st c with
    | error e' =>
      rw [hs] at h
      cases h
      exact (optStep_error_cases hs).2.2
    | ok st1 =>
      rw [hs] at h
      exact ih st1 e h

theorem optRun_ok_depth :
    ∀ (cs : List Char) (st st' : OptState), optRun st cs = Except.ok st' →
      0 ≤ st.depth →
      st'.depth = st.depth + (opens cs : Int) - (closes cs : Int) := by
  intro cs
  induction cs with
  | nil =>
    intro st st' h _
    cases h
    simp [opens, closes]
  | cons c rest ih =>
    intro st st' h hge
    unfold optRun at h
    cases hs : optStep st c with
    | error e => rw [hs] at h; cases h
    | ok st1 =>
      rw [hs] at h
      have hδ := (optStep_depth hs hge).1
      have h0 := (optStep_depth hs hge).2.1
      have hih := ih st1 st' h h0
      rw [hih, hδ]
      unfold opens closes
      by_cases hb1 : c = '['
      · subst hb1
        simp [List.count_cons]
        ring
      by_cases hb2 : c = ']'
      · subst hb2
        simp [List.count_cons]
        ring
      · simp [List.count_cons, hb1, hb2]

theorem optRun_error_iff :
    ∀ (cs : List Char) (st : OptState), 0 ≤ st.depth →
      ((∃ e, optRun st cs = Except.error e) ↔
        ∃ n, st.depth + (opens (cs.take n) : Int) < (closes (cs.take n) : Int)) := by
  intro cs
  induction cs with
  | nil =>
    intro st hge
    constructor
    · rintro ⟨e, he⟩
      cases he
    · rintro ⟨n, hn⟩
      simp [opens, closes] at hn
      omega
  | cons c rest ih =>
    intro st hge
    cases hs : optStep st c with
    | error e =>
      obtain ⟨hc, hdep, he⟩ := optStep_error_cases hs
      subst hc
      refine iff_of_true ⟨e, ?_⟩ ⟨1, ?_⟩
      · unfold optRun
        rw [hs]
      · simp [opens, closes, List.count_cons]
        omega
    | ok st1 =>
      have hδ := (optStep_depth hs hge).1
      have h0 := (optStep_depth hs hge).2.1
      have hrun : optRun st (c :: rest) = optRun st1 rest := by
        conv_lhs => rw [optRun.eq_def]
        dsimp only
        rw [hs]
      rw [hrun, ih st1 h0]
      constructor
      · rintro ⟨m, hm⟩
        refine ⟨m + 1, ?_⟩
        rw [List.take_succ_cons]
        unfold opens closes at hm ⊢
        rw [hδ] at hm
        by_cases hb1 : c = '['
        · subst hb1; simp [List.count_cons] at hm ⊢; omega
        by_cases hb2 : c = ']'
        · subst hb2; simp [List.count_cons] at hm ⊢; omega
        · simp [List.count_cons, hb1, hb2] at hm ⊢; omega
      · rintro ⟨n, hn⟩
        cases n with
        | zero =>
          simp [opens, closes] at hn
          omega
        | succ m =>
          refine ⟨m, ?_⟩
          rw [List.take_succ_cons] at hn
          unfold opens closes at hn ⊢
          rw [hδ]
          by_cases hb1 : c = '['
          · subst hb1; simp [List.count_cons] at hn ⊢; omega
          by_cases hb2 : c = ']'
          · subst hb2; simp [List.count_cons] at hn ⊢; omega
          · simp [List.count_cons, hb1, hb2] at hn ⊢; omega

def isLB : Token → Bool := fun t => match t with | Token.LoopBegin _ => true | _ => false

def isLE : Token → Bool := fun t => match t with | Token.LoopEnd _ => true | _ => false

/-- Number of `LoopBegin` tokens. -/
def lbCount (l : List Token) : Nat := l.countP isLB

/-- Number of `LoopEnd` tokens. -/
def leCount (l : List Token) : Nat := l.countP isLE

/-- Every prefix closes at most as many loops as it opens. -/
def prefixBal (l : List Token) : Prop :=
  ∀ n, leCount (l.take n) ≤ lbCount (l.take n)

theorem buildJumpAddrGo_total :
    ∀ (l opt : List Token) (stack : List Nat) (i : Nat),
      (∀ n, leCount (l.take n) ≤ lbCount (l.take n) + stack.length) →
      ∃ out, buildJumpAddrGo l opt stack i = some out := by
  intro l
  induction l with
  | nil => intro opt stack i _; exact ⟨opt, rfl⟩
  | cons t rest ih =>
    intro opt stack i h
    cases t
    case LoopBegin a =>
      simp only [buildJumpAddrGo]
      refine ih _ (i :: stack) (i + 1) ?_
      intro n
      have := h (n + 1)
      simp [leCount, lbCount, List.take_succ_cons, List.countP_cons, isLB, isLE] at this ⊢
      omega
    case LoopEnd a =>
      have h1 := h 1
      simp [leCount, lbCount, List.take_succ_cons, List.countP_cons, isLB, isLE] at h1
      cases stack with
      | nil => simp at h1
      | cons pos stack' =>
        simp only [buildJumpAddrGo]
        refine ih _ stack' (i + 1) ?_
        intro n
        have := h (n + 1)
        simp [leCount, lbCount, List.take_succ_cons, List.countP_cons, isLB, isLE] at this ⊢
        omega
    all_goals
      simp only [buildJumpAddrGo]
      refine ih _ stack (i + 1) ?_
      intro n
      have := h (n + 1)
      simp [leCount, lbCount, List.take_succ_cons, List.countP_cons, isLB, isLE] at this ⊢
      omega

theorem prefixBal_append_free {l ws : List Token} (h : prefixBal l)
    (hws : ∀ t ∈ ws, isLE t = false) : prefixBal (l ++ ws) := by
  intro n
  rw [List.take_append_eq_append_take]
  unfold leCount lbCount
  rw [List.countP_append, List.countP_append]
  have hle0 : (List.take (n - l.length) ws).countP isLE = 0 := by
    rw [List.countP_eq_zero]
    intro t ht
    simp [hws t (List.take_subset _ _ ht)]
  rw [hle0]
  have hh := h n
  unfold leCount lbCount at hh
  omega

theorem prefixBal_append_LE {l : List Token} {r : Int} (h : prefixBal l)
    (hs : leCount l + 1 ≤ lbCount l) : prefixBal (l ++ [Token.LoopEnd r]) := by
  intro n
  rw [List.take_append_eq_append_take]
  unfold leCount lbCount
  rw [List.countP_append, List.countP_append]
  have hle1 : (List.take (n - l.length) [Token.LoopEnd r]).countP isLE ≤ 1 := by
    calc (List.take (n - l.length) [Token.LoopEnd r]).countP isLE
        ≤ ([Token.LoopEnd r] : List Token).countP isLE :=
          List.Sublist.countP_le _ (List.take_sublist _ _)
      _ ≤ 1 := by simp [List.countP_cons, isLE]
  by_cases hn : n ≤ l.length
  · have h0 : n - l.length = 0 := by omega
    have hh := h n
    unfold leCount lbCount at hh
    rw [h0]
    simp only [List.take_zero, List.countP_nil]
    omega
  · have hteq : List.take n l = l := List.take_of_length_le (by omega)
    rw [hteq]
    unfold leCount lbCount at hs
    omega

theorem prefixBal_dropLast {l : List Token} (h : prefixBal l) : prefixBal l.dropLast := by
  intro n
  rw [List.dropLast_eq_take, List.take_take]
  exact h (min n (l.length - 1))

/-- `begin` points just past a `LoopBegin` placeholder (or is 0). -/
def beginOk (inst : List Token) (bi : Nat) : Prop :=
  bi = 0 ∨ (0 < bi ∧ bi ≤ inst.length
    ∧ ∃ r, inst.get? (bi - 1) = some (Token.LoopBegin r))

/-- The optimizer sweep invariant: the emitted IR is prefix-balanced, its
bracket surplus equals `depth`, and `begin` points past a `LoopBegin`. -/
def optInv (st : OptState) : Prop :=
  prefixBal st.inst
  ∧ (lbCount st.inst : Int) - (leCount st.inst : Int) = st.depth
  ∧ beginOk st.inst st.beginIdx

theorem beginOk_append {inst ws : List Token} {bi : Nat} (h : beginOk inst bi) :
    beginOk (inst ++ ws) bi := by
  rcases h with h | ⟨h1, h2, r, h3⟩
  · exact Or.inl h
  · refine Or.inr ⟨h1, by simp; omega, r, ?_⟩
    rw [List.get?_append (by omega)]
    exact h3

theorem counts_free (ws : List Token)
    (hws : ∀ t ∈ ws, isLE t = false ∧ isLB t = false) :
    ws.countP isLE = 0 ∧ ws.countP isLB = 0 := by
  constructor <;> rw [List.countP_eq_zero] <;> intro t ht <;>
    simp [(hws t ht).1, (hws t ht).2]

theorem flushAdds_free (mp : List (Int × Int)) :
    ∀ t ∈ flushAdds mp, isLE t = false ∧ isLB t = false := by
  intro t ht
  obtain ⟨k, v, hv, rfl⟩ := mem_flushAdds ht
  exact ⟨rfl, rfl⟩

theorem shiftList_free (sh : Int) :
    ∀ t ∈ (if sh ≠ 0 then [Token.Shift sh] else []), isLE t = false ∧ isLB t = false := by
  intro t ht
  split at ht
  · rw [List.mem_singleton] at ht
    subst ht
    exact ⟨rfl, rfl⟩
  · cases ht

theorem idiomList_free (mp : List (Int × Int)) (sh : Int) :
    ∀ t ∈ (mp.filterMap fun kv =>
        if kv.2 = 0 then none
        else if kv.2 = 1 then some (Token.AddTo (kv.1 + sh) sh)
        else some (Token.Mul kv.2 (kv.1 + sh) sh)) ++ [Token.Clear sh],
      isLE t = false ∧ isLB t = false := by
  intro t ht
  rcases List.mem_append.mp ht with ht | ht
  · rcases mem_idiomFilter ht with ⟨a, b, rfl⟩ | ⟨a, b, c, rfl⟩
    · exact ⟨rfl, rfl⟩
    · exact ⟨rfl, rfl⟩
  · rw [List.mem_singleton] at ht
    subst ht
    exact ⟨rfl, rfl⟩

theorem optInv_goal_append_free {inst ws : List Token} {bi : Nat} {d : Int}
    (hbal : prefixBal inst) (hcnt : (lbCount inst : Int) - (leCount inst : Int) = d)
    (hbegin : beginOk inst bi)
    (hws : ∀ t ∈ ws, isLE t = false ∧ isLB t = false) :
    prefixBal (inst ++ ws)
    ∧ (lbCount (inst ++ ws) : Int) - (leCount (inst ++ ws) : Int) = d
    ∧ beginOk (inst ++ ws) bi := by
  obtain ⟨hle0, hlb0⟩ := counts_free _ hws
  refine ⟨prefixBal_append_free hbal (fun t ht => (hws t ht).1), ?_, beginOk_append hbegin⟩
  unfold lbCount leCount at hcnt ⊢
  rw [List.countP_append, List.countP_append, hle0, hlb0]
  simpa using hcnt

theorem last_split {l : List Token} {t : Token}
    (h : l.getLast? = some t) : l.dropLast ++ [t] = l := by
  have hne : l ≠ [] := by
    intro hc
    rw [hc] at h
    cases h
  have h2 : l.getLast? = some (l.getLast hne) := List.getLast?_eq_getLast _ hne
  rw [h] at h2
  have h3 : l.getLast hne = t := (Option.some_inj.mp h2).symm
  rw [← h3]
  exact List.dropLast_append_getLast hne

theorem optStep_inv {st st' : OptState} {c : Char}
    (h : optStep st c = Except.ok st') (hInv : optInv st) : optInv st' := by
  obtain ⟨hbal, hcnt, hbegin⟩ := hInv
  have hfree1 : ∀ (x : Token), isLE x = false → isLB x = false →
      ∀ t ∈ ([x] : List Token), isLE t = false ∧ isLB t = false := by
    intro x hx1 hx2 t ht
    rw [List.mem_singleton] at ht
    subst ht
    exact ⟨hx1, hx2⟩
  rcases optStep_cases st c st' h with
    ⟨-, rfl⟩ | ⟨-, rfl⟩ | ⟨-, rfl⟩ | ⟨-, rfl⟩ | ⟨-, rfl⟩
    | ⟨-, a, -, rfl⟩ | ⟨-, -, rfl⟩
    | ⟨-, rfl⟩ | ⟨-, hdep, hcond, hrest⟩ | ⟨-, hdep, -, rfl⟩ | ⟨-, rfl⟩
  · exact ⟨hbal, hcnt, hbegin⟩
  · exact ⟨hbal, hcnt, hbegin⟩
  · exact ⟨hbal, hcnt, hbegin⟩
  · exact ⟨hbal, hcnt, hbegin⟩
  · exact optInv_goal_append_free hbal hcnt hbegin (hfree1 _ rfl rfl)
  · refine optInv_goal_append_free hbal hcnt hbegin ?_
    intro t ht
    rcases List.mem_cons.mp ht with rfl | ht
    · exact ⟨rfl, rfl⟩
    · rw [List.mem_singleton] at ht
      subst ht
      exact ⟨rfl, rfl⟩
  · exact optInv_goal_append_free hbal hcnt hbegin (hfree1 _ rfl rfl)
  · -- the '[' branch: flush, commit shift, push the LoopBegin placeholder
    obtain ⟨hbal1, hcnt1, hbegin1⟩ :=
      optInv_goal_append_free hbal hcnt hbegin (flushAdds_free st.mp)
    obtain ⟨hbal2, hcnt2, hbegin2⟩ :=
      optInv_goal_append_free hbal1 hcnt1 hbegin1 (shiftList_free st.shift)
    refine ⟨prefixBal_append_free hbal2 ?_, ?_, ?_⟩
    · intro t ht
      rw [List.mem_singleton] at ht
      subst ht
      rfl
    · have hone : List.countP isLB [Token.LoopBegin 0] = 1 := by
        simp [List.countP_cons, isLB]
      have hzero : List.countP isLE [Token.LoopBegin 0] = 0 := by
        simp [List.countP_cons, isLE]
      simp only [lbCount, leCount] at hcnt2 ⊢
      simp only [List.countP_append, hone, hzero] at hcnt2 ⊢
      omega
    · refine Or.inr ⟨by simp, le_refl _, 0, ?_⟩
      have hl : (((st.inst ++ flushAdds st.mp)
            ++ (if st.shift ≠ 0 then [Token.Shift st.shift] else []))
            ++ [Token.LoopBegin 0]).length - 1
          = ((st.inst ++ flushAdds st.mp)
            ++ (if st.shift ≠ 0 then [Token.Shift st.shift] else [])).length := by
        simp
        omega
      rw [hl]
      exact List.get?_concat_length _ _
  · -- the ']' multiply-add/clear idiom branch
    obtain ⟨hlen, hsh0, hmp0⟩ := hcond
    rcases hbegin with hb0 | ⟨hbpos, hble, r, hbget⟩
    · exfalso
      have hnil : st.inst = [] := List.length_eq_zero.mp (by omega)
      rw [hnil] at hcnt
      simp [lbCount, leCount] at hcnt
      omega
    · have hget : st.inst.getLast? = some (Token.LoopBegin r) := by
        rw [List.getLast?_eq_get?, hlen]
        exact hbget
      have hsplit : st.inst.dropLast ++ [Token.LoopBegin r] = st.inst := last_split hget
      have hcntd : lbCount st.inst.dropLast + 1 = lbCount st.inst
          ∧ leCount st.inst.dropLast = leCount st.inst := by
        constructor <;> simp only [lbCount, leCount] <;>
          rw [← hsplit, List.countP_append] <;>
          simp [List.countP_cons, isLB, isLE]
      have hbald : prefixBal st.inst.dropLast := prefixBal_dropLast hbal
      rcases hrest with ⟨prev, hlast, rfl⟩ | rfl
      · have hsplit2 : st.inst.dropLast.dropLast ++ [Token.Shift prev] = st.inst.dropLast :=
          last_split hlast
        have hcntd2 : lbCount st.inst.dropLast.dropLast = lbCount st.inst.dropLast
            ∧ leCount st.inst.dropLast.dropLast = leCount st.inst.dropLast := by
          constructor <;> simp only [lbCount, leCount] <;>
            rw [← hsplit2, List.countP_append] <;>
            simp [List.countP_cons, isLB, isLE]
        have hfree := idiomList_free (mpRemove st.mp 0) prev
        have hzf := counts_free ((mpRemove st.mp 0).filterMap fun kv =>
            if kv.2 = 0 then none
            else if kv.2 = 1 then some (Token.AddTo (kv.1 + prev) prev)
            else some (Token.Mul kv.2 (kv.1 + prev) prev))
          (fun t ht => by
            rcases mem_idiomFilter ht with ⟨a, b, rfl⟩ | ⟨a, b, c', rfl⟩ <;> exact ⟨rfl, rfl⟩)
        have hcl1 : List.countP isLE [Token.Clear prev] = 0 := by simp [List.countP_cons, isLE]
        have hcl2 : List.countP isLB [Token.Clear prev] = 0 := by simp [List.countP_cons, isLB]
        refine ⟨?_, ?_, Or.inl rfl⟩
        · rw [List.append_assoc]
          exact prefixBal_append_free (prefixBal_dropLast hbald) (fun t ht => (hfree t ht).1)
        · simp only [lbCount, leCount] at hcnt hcntd hcntd2 ⊢
          simp only [List.countP_append, hzf.1, hzf.2, hcl1, hcl2]
          omega
      · have hfree := idiomList_free (mpRemove st.mp 0) st.shift
        have hzf := counts_free ((mpRemove st.mp 0).filterMap fun kv =>
            if kv.2 = 0 then none
            else if kv.2 = 1 then some (Token.AddTo (kv.1 + st.shift) st.shift)
            else some (Token.Mul kv.2 (kv.1 + st.shift) st.shift))
          (fun t ht => by
            rcases mem_idiomFilter ht with ⟨a, b, rfl⟩ | ⟨a, b, c', rfl⟩ <;> exact ⟨rfl, rfl⟩)
        have hcl1 : List.countP isLE [Token.Clear st.shift] = 0 := by
          simp [List.countP_cons, isLE]
        have hcl2 : List.countP isLB [Token.Clear st.shift] = 0 := by
          simp [List.countP_cons, isLB]
        refine ⟨?_, ?_, Or.inl rfl⟩
        · rw [List.append_assoc]
          exact prefixBal_append_free hbald (fun t ht => (hfree t ht).1)
        · simp only [lbCount, leCount] at hcnt hcntd ⊢
          simp only [List.countP_append, hzf.1, hzf.2, hcl1, hcl2]
          omega
  · -- the ']' ordinary close branch
    obtain ⟨hbal1, hcnt1, hbegin1⟩ :=
      optInv_goal_append_free hbal hcnt hbegin (flushAdds_free st.mp)
    obtain ⟨hbal2, hcnt2, hbegin2⟩ :=
      optInv_goal_append_free hbal1 hcnt1 hbegin1 (shiftList_free st.shift)
    refine ⟨?_, ?_, beginOk_append hbegin2⟩
    · exact prefixBal_append_LE hbal2 (by omega)
    · have hone : List.countP isLE [Token.LoopEnd 0] = 1 := by
        simp [List.countP_cons, isLE]
      have hzero : List.countP isLB [Token.LoopEnd 0] = 0 := by
        simp [List.countP_cons, isLB]
      simp only [lbCount, leCount] at hcnt2 ⊢
      simp only [List.countP_append, hone, hzero] at hcnt2 ⊢
      omega
  · exact ⟨hbal, hcnt, hbegin⟩

/-- A prefix that closes more than it opens exists iff some `']'` is read
with every earlier `'['` matched (the reading of "a `]` while no `[` is
unmatched before it"). -/
theorem dip_iff_balanced_close (s : List Char) :
    (∃ n, opens (s.take n) < closes (s.take n)) ↔
      (∃ p q, s = p ++ ']' :: q ∧ charBalanced p) := by
  constructor
  · intro h
    have hfind := Nat.find_spec h
    have hmin : ∀ m, m < Nat.find h → ¬ opens (s.take m) < closes (s.take m) :=
      fun m hm => Nat.find_min h hm
    set n₀ := Nat.find h with hn₀
    have hpos : 0 < n₀ := by
      rcases Nat.eq_zero_or_pos n₀ with h0 | h0
      · rw [h0] at hfind
        simp [opens, closes] at hfind
      · exact h0
    have hle : n₀ ≤ s.length := by
      by_contra hgt
      push_neg at hgt
      have h1 : s.take n₀ = s := List.take_of_length_le (le_of_lt hgt)
      have h2 : s.take s.length = s := List.take_of_length_le le_rfl
      exact hmin s.length hgt (by rw [h2, ← h1]; exact hfind)
    have hmlt : n₀ - 1 < s.length := by omega
    have htk : s.take n₀ = s.take (n₀ - 1) ++ [s.get ⟨n₀ - 1, hmlt⟩] := by
      have h1 : s.take (n₀ - 1 + 1) = s.take (n₀ - 1) ++ (s[n₀ - 1]?).toList :=
        List.take_succ
      rw [List.getElem?_eq_getElem hmlt] at h1
      have h3 : n₀ - 1 + 1 = n₀ := by omega
      rw [h3] at h1
      exact h1
    have hnm := hmin (n₀ - 1) (by omega)
    push_neg at hnm
    rw [htk] at hfind
    unfold opens closes at hfind hnm
    rw [List.count_append, List.count_append, List.count_singleton',
      List.count_singleton'] at hfind
    by_cases hb : s.get ⟨n₀ - 1, hmlt⟩ = '['
    · exfalso
      rw [if_pos hb, if_neg (by rw [hb]; decide)] at hfind
      omega
    by_cases hc : s.get ⟨n₀ - 1, hmlt⟩ = ']'
    · rw [if_neg hb, if_pos hc] at hfind
      have heq : List.count '[' (s.take (n₀ - 1)) = List.count ']' (s.take (n₀ - 1)) := by
        omega
      refine ⟨s.take (n₀ - 1), s.drop n₀, ?_, ?_, ?_⟩
      · conv_lhs => rw [← List.take_append_drop n₀ s]
        rw [htk, hc, List.append_assoc]
        rfl
      · exact heq
      · intro k
        rw [List.take_take]
        have hk := hmin (min k (n₀ - 1)) (by omega)
        unfold opens closes at hk ⊢
        omega
    · exfalso
      rw [if_neg hb, if_neg hc] at hfind
      omega
  · rintro ⟨p, q, rfl, hbal, hpre⟩
    refine ⟨p.length + 1, ?_⟩
    have htk : (p ++ ']' :: q).take (p.length + 1) = p ++ [']'] := by
      rw [List.take_append_eq_append_take, List.take_of_length_le (by omega)]
      congr 1
      have h1 : p.length + 1 - p.length = 1 := by omega
      rw [h1]
      rfl
    rw [htk]
    unfold opens closes at hbal ⊢
    rw [List.count_append, List.count_append]
    simp [List.count_cons]
    omega

theorem optInv_init : optInv initState := by
  refine ⟨fun n => ?_, by simp [lbCount, leCount, initState], Or.inl rfl⟩
  simp [initState, lbCount, leCount]

theorem optRun_inv :
    ∀ (cs : List Char) (st st' : OptState), optRun st cs = Except.ok st' →
      optInv st → optInv st' := by
  intro cs
  induction cs with
  | nil =>
    intro st st' h hP
    cases h
    exact hP
  | cons c rest ih =>
    intro st st' h hP
    unfold optRun at h
    cases hs : optStep st c with
    | error e => rw [hs] at h; cases h
    | ok st1 =>
      rw [hs] at h
      exact ih st1 st' h (optStep_inv hs hP)

theorem new_buildJumpAddr_some {st : OptState} (hInv : optInv st) :
    ∃ out, buildJumpAddr (st.inst ++ [Token.End]) = some out := by
  apply buildJumpAddrGo_total
  intro n
  have hbal : prefixBal (st.inst ++ [Token.End]) := by
    refine prefixBal_append_free hInv.1 ?_
    intro t ht
    rw [List.mem_singleton] at ht
    subst ht
    rfl
  have := hbal n
  simpa using this

/-- C6: program construction fails with `"[ missing."` iff some `]` is
read while every `[` before it is matched; it fails with `"] missing."`
iff no such `]` exists and the stream ends with at least one unmatched
`[` (strictly more `[` than `]`); these are the only two errors (the
modelled jump-resolution panic is unreachable), and on error no IR is
produced, `Except.error` carrying no program. -/
theorem c6_error_characterization :
    ∀ s : List Char,
      ((Interpreter.new s = Except.error "[ missing.") ↔
        ∃ p q, s = p ++ ']' :: q ∧ charBalanced p)
      ∧ ((Interpreter.new s = Except.error "] missing.") ↔
        ((¬∃ p q, s = p ++ ']' :: q ∧ charBalanced p) ∧ closes s < opens s))
      ∧ (∀ e, Interpreter.new s = Except.error e →
          e = "[ missing." ∨ e = "] missing.") := by
  intro s
  have hiff := optRun_error_iff s initState (le_refl 0)
  have h0 : initState.depth = 0 := rfl
  have hconv : (∃ n, (initState.depth + (opens (s.take n) : Int) < (closes (s.take n) : Int)))
      ↔ (∃ n, opens (s.take n) < closes (s.take n)) := by
    constructor
    · rintro ⟨n, hn⟩
      rw [h0] at hn
      exact ⟨n, by omega⟩
    · rintro ⟨n, hn⟩
      refine ⟨n, ?_⟩
      rw [h0]
      omega
  cases hrun : optRun initState s with
  | error e =>
    have he : e = "[ missing." := optRun_error_val s initState e hrun
    subst he
    have hnew : Interpreter.new s = Except.error "[ missing." := by
      unfold Interpreter.new
      rw [hrun]
    have hdip : ∃ n, opens (s.take n) < closes (s.take n) :=
      hconv.mp (hiff.mp ⟨_, hrun⟩)
    have hbc := (dip_iff_balanced_close s).mp hdip
    refine ⟨iff_of_true hnew hbc, iff_of_false ?_ ?_, ?_⟩
    · rw [hnew]
      intro hcon
      exact absurd (Except.error.inj hcon) (by decide)
    · intro hcon
      exact hcon.1 hbc
    · intro e' he'
      rw [hnew] at he'
      exact Or.inl (Except.error.inj he').symm
  | ok st =>
    have hInv : optInv st := optRun_inv s initState st hrun optInv_init
    have hdepth : st.depth = (opens s : Int) - (closes s : Int) := by
      have hd := optRun_ok_depth s initState st hrun (le_refl 0)
      rw [h0] at hd
      omega
    have hnodip : ¬∃ n, opens (s.take n) < closes (s.take n) := by
      intro hd
      obtain ⟨e, he⟩ := hiff.mpr (hconv.mpr hd)
      rw [hrun] at he
      cases he
    have hnobc : ¬∃ p q, s = p ++ ']' :: q ∧ charBalanced p :=
      fun hbc => hnodip ((dip_iff_balanced_close s).mpr hbc)
    by_cases hpos : st.depth > 0
    · have hnew : Interpreter.new s = Except.error "] missing." := by
        unfold Interpreter.new
        rw [hrun]
        dsimp only
        rw [if_pos hpos]
      refine ⟨iff_of_false ?_ hnobc, iff_of_true hnew ⟨hnobc, by omega⟩, ?_⟩
      · rw [hnew]
        intro hcon
        exact absurd (Except.error.inj hcon) (by decide)
      · intro e' he'
        rw [hnew] at he'
        exact Or.inr (Except.error.inj he').symm
    · obtain ⟨out, hout⟩ := new_buildJumpAddr_some hInv
      have hnew : Interpreter.new s = Except.ok out := by
        unfold Interpreter.new
        rw [hrun]
        dsimp only
        rw [if_neg hpos, hout]
      have hnoerr : ∀ e', ¬ Interpreter.new s = Except.error e' := by
        intro e' hcon
        rw [hnew] at hcon
        cases hcon
      have hge : (0 : Int) ≤ st.depth := by
        have h1 := hInv.1 st.inst.length
        rw [List.take_of_length_le le_rfl] at h1
        have h2 := hInv.2.1
        omega
      refine ⟨iff_of_false (hnoerr _) hnobc, iff_of_false (hnoerr _) ?_, ?_⟩
      · rintro ⟨-, hlt⟩
        omega
      · intro e' he'
        exact absurd he' (hnoerr e')

/-- C6 witness: the source `"]"` fails with `"[ missing."` by the first
equivalence, instantiated at the split `"" ++ ']' :: ""`. -/
theorem c6_error_characterization_witness :
    Interpreter.new "]".toList = Except.error "[ missing." :=
  (c6_error_characterization "]".toList).1.mpr
    ⟨[], [], rfl, by decide, fun n => by simp [opens, closes]⟩
